import Mathlib

/-!
Verification development for the Debye-Huckel / Poisson-Boltzmann solver
(`lu.py`).  The numerical core is embedded shallowly:

* the tridiagonal LU factorization `lutri`, the forward substitution
  `descente` and the backward substitution `remontee` are embedded over an
  arbitrary field (the Python code performs only field operations there);
* the system assemblers (`solve_debye_huckel`, `solve_poisson_boltzmann`,
  `solve_poisson_boltzmann_newton`) are embedded over the reals, mirroring
  the imperative list writes with `List.set` folds;
* a second, `Option`-valued embedding mirrors Python's runtime behaviour
  (IndexError on out-of-range access, ZeroDivisionError on division by
  zero) for the error-handling claims;
* the fixed-point driver `calcul_uk0` and the bisection `find_convergence_mu`
  are embedded as explicit loops.
-/

namespace DHPB

/-! ### Generic list access lemmas -/

theorem getD_set {α : Type} (l : List α) (i j : ℕ) (v d : α) :
    (l.set i v).getD j d = if i = j ∧ j < l.length then v else l.getD j d := by
  rw [List.getD_eq_getD_get?, List.getD_eq_getD_get?]
  by_cases hij : i = j
  · subst hij
    by_cases h : i < l.length
    · rw [List.get?_set_eq_of_lt _ h]; simp [h]
    · have h1 : (l.set i v).get? i = none :=
        List.get?_eq_none.mpr (by simpa using Nat.le_of_not_lt h)
      have h2 : l.get? i = none := List.get?_eq_none.mpr (Nat.le_of_not_lt h)
      rw [h1, h2, if_neg (by simp [h])]
  · rw [List.get?_set_ne _ _ hij, if_neg (by simp [hij])]

theorem getD_replicate {α : Type} (n i : ℕ) (a d : α) :
    (List.replicate n a).getD i d = if i < n then a else d := by
  rw [List.getD_eq_getD_get?]
  by_cases h : i < n
  · have h1 : (List.replicate n a).get? i = some a := by
      simp [List.get?_eq_getElem?, List.getElem?_replicate, h]
    rw [h1, if_pos h]; rfl
  · have h1 : (List.replicate n a).get? i = none :=
      List.get?_eq_none.mpr (by simpa using h)
    rw [h1, if_neg h]; rfl

theorem getD_range_map {α : Type} (f : ℕ → α) (m i : ℕ) (d : α) :
    (((List.range m).map f).getD i d) = if i < m then f i else d := by
  rw [List.getD_eq_getD_get?, List.get?_map]
  by_cases h : i < m
  · rw [List.get?_range h, if_pos h]; rfl
  · have h1 : (List.range m).get? i = none := List.get?_eq_none.mpr (by simpa using h)
    rw [h1, if_neg h]; rfl

/-! ### Tridiagonal LU factorization (`lutri`, lines 13-27)

`lutri(a, b, c)` takes the main diagonal `a` (length n), the sub-diagonal
`b` and the super-diagonal `c` (length n-1) and produces the multiplier
vector `l` (length n-1) and the factored diagonal `v` (length n) by

    v[0] = a[0]
    l[i-1] = b[i-1] / v[i-1]
    v[i]   = a[i] - l[i-1] * c[i-1]

`lutri_v a b c i` is the value `v[i]` and `lutri_l a b c i` is `l[i]`. -/

def lutri_v {K : Type} [Field K] (a b c : List K) : ℕ → K
  | 0 => a.getD 0 0
  | i + 1 => a.getD (i + 1) 0 - b.getD i 0 / lutri_v a b c i * c.getD i 0

def lutri_l {K : Type} [Field K] (a b c : List K) (i : ℕ) : K :=
  b.getD i 0 / lutri_v a b c i

def lutri {K : Type} [Field K] (a b c : List K) : List K × List K :=
  ((List.range (a.length - 1)).map (lutri_l a b c),
   (List.range a.length).map (lutri_v a b c))

/-! ### Forward substitution (`descente`, lines 30-42)

Solves L y = z for unit lower bidiagonal L with sub-diagonal `l`:
`y[0] = z[0]`, `y[i] = z[i] - l[i-1] * y[i-1]`. -/

def descente_y {K : Type} [Field K] (l z : List K) : ℕ → K
  | 0 => z.getD 0 0
  | i + 1 => z.getD (i + 1) 0 - l.getD i 0 * descente_y l z i

def descente {K : Type} [Field K] (l z : List K) : List K :=
  (List.range z.length).map (descente_y l z)

/-! ### Backward substitution (`remontee`, lines 45-58)

Solves U x = y for upper bidiagonal U with diagonal `v` and super-diagonal
`c`: `x[n-1] = y[n-1] / v[n-1]`, `x[i] = (y[i] - c[i] * x[i+1]) / v[i]`,
descending.  `remontee_x v c y j` is the entry `x[n-1-j]` (`j` counts from
the last index), so the produced list is `x[i] = remontee_x v c y (n-1-i)`. -/

def remontee_x {K : Type} [Field K] (v c y : List K) : ℕ → K
  | 0 => y.getD (y.length - 1) 0 / v.getD (y.length - 1) 0
  | j + 1 =>
      (y.getD (y.length - 1 - (j + 1)) 0 -
        c.getD (y.length - 1 - (j + 1)) 0 * remontee_x v c y j) /
        v.getD (y.length - 1 - (j + 1)) 0

def remontee {K : Type} [Field K] (v c y : List K) : List K :=
  (List.range y.length).map fun i => remontee_x v c y (y.length - 1 - i)

/-! ### Tridiagonal matrix-vector product

Row `i` of the tridiagonal matrix with diagonals `(b, a, c)` applied to a
vector `x` of length n: `b[i-1]*x[i-1] + a[i]*x[i] + c[i]*x[i+1]`, the
first term missing for `i = 0` and the last for `i = n-1`. -/

def triRow {K : Type} [Field K] (b a c x : List K) (i : ℕ) : K :=
  (if 1 ≤ i then b.getD (i - 1) 0 * x.getD (i - 1) 0 else 0) +
    a.getD i 0 * x.getD i 0 +
    (if i + 1 < x.length then c.getD i 0 * x.getD (i + 1) 0 else 0)

def triMulL {K : Type} [Field K] (b a c x : List K) : List K :=
  (List.range x.length).map (triRow b a c x)

/-- C1: for every tridiagonal matrix given by a diagonal `a` of length n,
a sub-diagonal `b` and a super-diagonal `c` of length n-1, such that every
factored pivot `v[i]` is nonzero, and every right-hand side `z` of length
n, composing `lutri`, `descente` and `remontee` yields `x` with `A·x = z`
exactly, where `A·x` is the tridiagonal matrix-vector product `triMulL`. -/
theorem claim_C1 {K : Type} [Field K] (a b c z : List K)
    (hb : b.length = a.length - 1) (hc : c.length = a.length - 1)
    (hz : z.length = a.length) (hn : 1 ≤ a.length)
    (hv : ∀ i < a.length, lutri_v a b c i ≠ 0) :
    triMulL b a c (remontee (lutri a b c).2 c (descente (lutri a b c).1 z)) = z := by
  clear hb hc
  set n := a.length with hna
  set V : ℕ → K := lutri_v a b c with hV
  set L : ℕ → K := lutri_l a b c with hL
  set llist : List K := (lutri a b c).1 with hll
  set vlist : List K := (lutri a b c).2 with hvl
  set Y : ℕ → K := descente_y llist z with hY
  set ylist : List K := descente llist z with hyl
  have hylen : ylist.length = n := by simp [hyl, descente, hz]
  set X : ℕ → K := remontee_x vlist c ylist with hX
  set xlist : List K := remontee vlist c ylist with hxl
  have hxlen : xlist.length = n := by simp [hxl, remontee, hylen]
  -- list access reduces to the index functions
  have hvget : ∀ i < n, vlist.getD i 0 = V i := by
    intro i hi; simp [hvl, lutri, getD_range_map, hi]
  have hlget : ∀ i, i < n - 1 → llist.getD i 0 = L i := by
    intro i hi; simp [hll, lutri, getD_range_map, hi]
  have hyget : ∀ i < n, ylist.getD i 0 = Y i := by
    intro i hi; simp [hyl, descente, getD_range_map, hz, hi]
  have hxget : ∀ i < n, xlist.getD i 0 = X (n - 1 - i) := by
    intro i hi; simp [hxl, remontee, getD_range_map, hylen, hi]
  -- backward substitution recurrences
  have hXlast : X 0 = Y (n - 1) / V (n - 1) := by
    rw [hX]
    show remontee_x vlist c ylist 0 = _
    rw [remontee_x, hylen, hyget _ (by omega), hvget _ (by omega)]
  have hXstep : ∀ j, j + 1 ≤ n - 1 →
      X (j + 1) =
        (Y (n - 1 - (j + 1)) - c.getD (n - 1 - (j + 1)) 0 * X j) / V (n - 1 - (j + 1)) := by
    intro j hj
    rw [hX]
    show remontee_x vlist c ylist (j + 1) = _
    rw [remontee_x, hylen, hyget _ (by omega), hvget _ (by omega)]
  -- the U-solve identity, in terms of actual indices i (the X-index is n-1-i)
  have hUrow : ∀ i < n,
      V i * X (n - 1 - i) + (if i + 1 < n then c.getD i 0 * X (n - 1 - (i + 1)) else 0) = Y i := by
    intro i hi
    by_cases hlast : i = n - 1
    · subst hlast
      rw [if_neg (by omega)]
      have h0 : n - 1 - (n - 1) = 0 := by omega
      rw [h0, hXlast, add_zero]
      exact mul_div_cancel₀ _ (hv (n - 1) (by omega))
    · have hi1 : i + 1 < n := by omega
      rw [if_pos hi1]
      have hj : (n - 1 - i) = (n - 1 - (i + 1)) + 1 := by omega
      have hj2 : n - 1 - ((n - 1 - (i + 1)) + 1) = i := by omega
      rw [hj, hXstep _ (by omega), hj2]
      field_simp [hv _ hi]
  -- the L-solve recurrence
  have hY0 : Y 0 = z.getD 0 0 := rfl
  have hYstep : ∀ i, i + 1 < n → z.getD (i + 1) 0 = Y (i + 1) + L i * Y i := by
    intro i hi
    have h1 : Y (i + 1) = z.getD (i + 1) 0 - llist.getD i 0 * Y i := rfl
    rw [h1, hlget _ (by omega)]
    ring
  -- diagonal and sub-diagonal recovery from the factorization
  have ha0 : a.getD 0 0 = V 0 := rfl
  have hastep : ∀ i, a.getD (i + 1) 0 = V (i + 1) + L i * c.getD i 0 := by
    intro i
    have h1 : V (i + 1) = a.getD (i + 1) 0 - b.getD i 0 / V i * c.getD i 0 := rfl
    rw [h1, hL]
    show _ = _ - _ + lutri_l a b c i * _
    rw [lutri_l]
    ring
  have hbrec : ∀ i < n, b.getD i 0 = L i * V i := by
    intro i hi
    rw [hL]
    show _ = lutri_l a b c i * _
    rw [lutri_l, div_mul_cancel₀ _ (hv _ hi)]
  -- assemble the rows
  apply List.ext_getElem (by simp [triMulL, hxlen, hz])
  intro i h1 h2
  have hi : i < n := by simpa [triMulL, hxlen] using h1
  rw [← List.getD_eq_getElem _ 0, ← List.getD_eq_getElem _ 0]
  show (triMulL b a c xlist).getD i 0 = z.getD i 0
  rw [triMulL, getD_range_map, if_pos (by omega : i < xlist.length), triRow, hxlen]
  match i, hi with
  | 0, hi =>
    rw [if_neg (by omega), ha0, hxget 0 (by omega), hY0.symm]
    have h1 := hUrow 0 (by omega)
    by_cases h1n : 0 + 1 < n
    · rw [if_pos h1n] at h1 ⊢
      rw [hxget 1 (by omega)]
      simpa using h1
    · rw [if_neg h1n] at h1 ⊢
      simpa using h1
  | i + 1, hi =>
    rw [if_pos (by omega), hYstep i hi]
    have hsub : i + 1 - 1 = i := by omega
    rw [hsub, hxget i (by omega), hxget (i + 1) (by omega), hbrec i (by omega), hastep i]
    have hrow1 := hUrow i (by omega)
    rw [if_pos (by omega : i + 1 < n)] at hrow1
    have hrow2 := hUrow (i + 1) hi
    by_cases h2n : i + 1 + 1 < n
    · rw [if_pos h2n] at hrow2 ⊢
      rw [hxget (i + 2) (by omega)]
      calc L i * V i * X (n - 1 - i) +
            (V (i + 1) + L i * c.getD i 0) * X (n - 1 - (i + 1)) +
            c.getD (i + 1) 0 * X (n - 1 - (i + 2))
          = L i * (V i * X (n - 1 - i) + c.getD i 0 * X (n - 1 - (i + 1))) +
            (V (i + 1) * X (n - 1 - (i + 1)) + c.getD (i + 1) 0 * X (n - 1 - (i + 1 + 1))) := by
            ring
      _ = Y (i + 1) + L i * Y i := by rw [hrow1, hrow2]; ring
    · rw [if_neg h2n] at hrow2 ⊢
      calc L i * V i * X (n - 1 - i) +
            (V (i + 1) + L i * c.getD i 0) * X (n - 1 - (i + 1)) + 0
          = L i * (V i * X (n - 1 - i) + c.getD i 0 * X (n - 1 - (i + 1))) +
            (V (i + 1) * X (n - 1 - (i + 1)) + 0) := by ring
      _ = Y (i + 1) + L i * Y i := by rw [hrow1, hrow2]; ring

/-- Witness for C1: the commented fixture of `main` (`b, a, c = [2, 6],
[1, 10, 10], [4, 5]` with right-hand side `[3, 3, 3]`) satisfies all
hypotheses of `claim_C1`, and the composed solve reproduces the
right-hand side. -/
theorem claim_C1_witness :
    (([2, 6] : List ℚ).length = ([1, 10, 10] : List ℚ).length - 1 ∧
      ([4, 5] : List ℚ).length = ([1, 10, 10] : List ℚ).length - 1 ∧
      ([3, 3, 3] : List ℚ).length = ([1, 10, 10] : List ℚ).length ∧
      1 ≤ ([1, 10, 10] : List ℚ).length ∧
      (∀ i < ([1, 10, 10] : List ℚ).length, lutri_v ([1, 10, 10] : List ℚ) [2, 6] [4, 5] i ≠ 0)) ∧
    triMulL ([2, 6] : List ℚ) [1, 10, 10] [4, 5]
      (remontee (lutri ([1, 10, 10] : List ℚ) [2, 6] [4, 5]).2 [4, 5]
        (descente (lutri ([1, 10, 10] : List ℚ) [2, 6] [4, 5]).1 [3, 3, 3])) = [3, 3, 3] := by
  have hv : ∀ i < ([1, 10, 10] : List ℚ).length,
      lutri_v ([1, 10, 10] : List ℚ) [2, 6] [4, 5] i ≠ 0 := by
    intro i hi
    simp only [List.length_cons, List.length_nil] at hi
    interval_cases i <;> norm_num [lutri_v]
  exact ⟨⟨rfl, rfl, rfl, by simp, hv⟩,
    claim_C1 [1, 10, 10] [2, 6] [4, 5] [3, 3, 3] rfl rfl rfl (by simp) hv⟩

/-! ### Generic lemmas about imperative array-write loops

The Python assemblers initialise lists and then overwrite entries in
`for i in range(1, n-1)` loops.  We embed those loops as `List.foldl`
over `List.range' 1 m` with `List.set` writes and characterise the
result entrywise. -/

theorem foldl_pair {α β : Type} (g₁ : α → ℕ → α) (g₂ : β → ℕ → β) :
    ∀ (L : List ℕ) (s : α × β),
    L.foldl (fun s i => (g₁ s.1 i, g₂ s.2 i)) s = (L.foldl g₁ s.1, L.foldl g₂ s.2) := by
  intro L
  induction L with
  | nil => intro s; rfl
  | cons i L ih => intro s; simp only [List.foldl_cons, ih]

theorem foldl_triple {α β γ : Type} (g₁ : α → ℕ → α) (g₂ : β → ℕ → β) (g₃ : γ → ℕ → γ) :
    ∀ (L : List ℕ) (s : α × β × γ),
    L.foldl (fun s i => (g₁ s.1 i, g₂ s.2.1 i, g₃ s.2.2 i)) s =
      (L.foldl g₁ s.1, L.foldl g₂ s.2.1, L.foldl g₃ s.2.2) := by
  intro L
  induction L with
  | nil => intro s; rfl
  | cons i L ih => intro s; simp only [List.foldl_cons, ih]

theorem foldl_quad {α β γ δ : Type}
    (g₁ : α → ℕ → α) (g₂ : β → ℕ → β) (g₃ : γ → ℕ → γ) (g₄ : δ → ℕ → δ) :
    ∀ (L : List ℕ) (s : α × β × γ × δ),
    L.foldl (fun s i => (g₁ s.1 i, g₂ s.2.1 i, g₃ s.2.2.1 i, g₄ s.2.2.2 i)) s =
      (L.foldl g₁ s.1, L.foldl g₂ s.2.1, L.foldl g₃ s.2.2.1, L.foldl g₄ s.2.2.2) := by
  intro L
  induction L with
  | nil => intro s; rfl
  | cons i L ih => intro s; simp only [List.foldl_cons, ih]

theorem foldl_length {α : Type} {f : List α → ℕ → List α}
    (hf : ∀ l i, (f l i).length = l.length) :
    ∀ (L : List ℕ) (l : List α), (L.foldl f l).length = l.length := by
  intro L
  induction L with
  | nil => intro l; rfl
  | cons i L ih => intro l; rw [List.foldl_cons, ih, hf]

theorem foldl_set_getD (v : ℕ → ℝ) (t : ℕ) :
    ∀ (m s : ℕ) (l : List ℝ) (j : ℕ), t ≤ s →
    ((List.range' s m).foldl (fun l i => l.set (i - t) (v i)) l).getD j 0 =
      if s ≤ j + t ∧ j + t < s + m ∧ j < l.length then v (j + t) else l.getD j 0 := by
  intro m
  induction m with
  | zero =>
    intro s l j hts
    rw [if_neg (by omega)]
    rfl
  | succ m ih =>
    intro s l j hts
    rw [List.range'_succ, List.foldl_cons, ih _ _ _ (by omega)]
    rw [List.length_set, getD_set]
    by_cases h1 : s + 1 ≤ j + t ∧ j + t < s + 1 + m ∧ j < l.length
    · rw [if_pos h1, if_pos (by omega)]
    · rw [if_neg h1]
      by_cases h2 : s - t = j ∧ j < l.length
      · rw [if_pos h2, if_pos (by omega)]
        congr 1
        omega
      · rw [if_neg h2, if_neg (by omega)]

theorem foldl_set_getD_self (v : ℕ → ℝ) :
    ∀ (m s : ℕ) (l : List ℝ) (j : ℕ), 1 ≤ s →
    ((List.range' s m).foldl (fun l i => l.set i (v i)) l).getD j 0 =
      if s ≤ j ∧ j < s + m ∧ j < l.length then v j else l.getD j 0 := by
  intro m s l j hs
  have h := foldl_set_getD v 0 m s l j (by omega)
  simpa using h

/-! ### The Debye-Huckel assembler (`solve_debye_huckel`, lines 61-87)

Each assembler computes `h = 10 / n` and the grid coordinate
`xi = 1 + i * h`; the loop body writes `b[i-1] = 1 - h/(2*xi)`,
`c[i] = 1 + h/(2*xi)` and `x[i] = xi` for `i in range(1, n-1)`, after
initialising `a = [-(2 + h^2)] * n`, `c[0] = 2`, `z[0] = mu*h*(h-2)`, and
finishing with `b[n-2] = 1 - h/(2*xn)`, `x[n-1] = xn` where
`xn = 1 + (n-1)*h`.  The per-index written values are named `bval`,
`cval`, `xval`. -/

noncomputable def hstep (n : ℕ) : ℝ := 10 / n

noncomputable def xval (n i : ℕ) : ℝ := 1 + i * hstep n

noncomputable def bval (n i : ℕ) : ℝ := 1 - hstep n / (2 * xval n i)

noncomputable def cval (n i : ℕ) : ℝ := 1 + hstep n / (2 * xval n i)

noncomputable def dh_a (n : ℕ) : List ℝ := List.replicate n (-(2 + hstep n ^ 2))

noncomputable def dh_c0 (n : ℕ) : List ℝ := (List.replicate (n - 1) 0).set 0 2

noncomputable def dh_z (n : ℕ) (μ : ℝ) : List ℝ :=
  (List.replicate n 0).set 0 (μ * hstep n * (hstep n - 2))

noncomputable def dh_loop (n m : ℕ) (bcx : List ℝ × List ℝ × List ℝ) :
    List ℝ × List ℝ × List ℝ :=
  (List.range' 1 m).foldl (fun bcx i =>
    (bcx.1.set (i - 1) (bval n i), bcx.2.1.set i (cval n i), bcx.2.2.set i (xval n i))) bcx

noncomputable def dh_bcx (n : ℕ) : List ℝ × List ℝ × List ℝ :=
  dh_loop n (n - 1 - 1) (List.replicate (n - 1) 0, dh_c0 n, List.replicate n 1)

noncomputable def dh_b (n : ℕ) : List ℝ := (dh_bcx n).1.set (n - 2) (bval n (n - 1))

noncomputable def dh_c (n : ℕ) : List ℝ := (dh_bcx n).2.1

noncomputable def dh_x (n : ℕ) : List ℝ := ((dh_bcx n).2.2).set (n - 1) (xval n (n - 1))

noncomputable def solve_debye_huckel (n : ℕ) (μ : ℝ) :
    List ℝ × List ℝ × (List ℝ × List ℝ × List ℝ) :=
  (dh_x n,
   remontee (lutri (dh_a n) (dh_b n) (dh_c n)).2 (dh_c n)
     (descente (lutri (dh_a n) (dh_b n) (dh_c n)).1 (dh_z n μ)),
   (dh_b n, dh_a n, dh_c n))

theorem dh_loop_eq (n m : ℕ) (bcx : List ℝ × List ℝ × List ℝ) :
    dh_loop n m bcx =
      ((List.range' 1 m).foldl (fun l i => l.set (i - 1) (bval n i)) bcx.1,
       (List.range' 1 m).foldl (fun l i => l.set i (cval n i)) bcx.2.1,
       (List.range' 1 m).foldl (fun l i => l.set i (xval n i)) bcx.2.2) := by
  unfold dh_loop
  exact foldl_triple (fun (l : List ℝ) i => l.set (i - 1) (bval n i))
    (fun (l : List ℝ) i => l.set i (cval n i))
    (fun (l : List ℝ) i => l.set i (xval n i)) (List.range' 1 m) bcx

theorem dh_bcx_1_length (n : ℕ) : (dh_bcx n).1.length = n - 1 := by
  rw [dh_bcx, dh_loop_eq]
  exact (foldl_length (by simp) _ _).trans (by simp)

theorem dh_bcx_21_length (n : ℕ) : (dh_bcx n).2.1.length = n - 1 := by
  rw [dh_bcx, dh_loop_eq]
  exact (foldl_length (by simp) _ _).trans (by simp [dh_c0])

theorem dh_bcx_22_length (n : ℕ) : (dh_bcx n).2.2.length = n := by
  rw [dh_bcx, dh_loop_eq]
  exact (foldl_length (by simp) _ _).trans (by simp)

theorem dh_b_length (n : ℕ) : (dh_b n).length = n - 1 := by
  rw [dh_b, List.length_set, dh_bcx_1_length]

theorem dh_c_length (n : ℕ) : (dh_c n).length = n - 1 := dh_bcx_21_length n

theorem dh_x_length (n : ℕ) : (dh_x n).length = n := by
  rw [dh_x, List.length_set, dh_bcx_22_length]

theorem dh_a_length (n : ℕ) : (dh_a n).length = n := by simp [dh_a]

theorem dh_z_length (n : ℕ) (μ : ℝ) : (dh_z n μ).length = n := by simp [dh_z]

theorem dh_bcx_1_getD (n j : ℕ) (hj : j + 1 < 1 + (n - 1 - 1)) :
    (dh_bcx n).1.getD j 0 = bval n (j + 1) := by
  rw [dh_bcx, dh_loop_eq]
  dsimp only
  rw [foldl_set_getD _ 1 _ _ _ _ (le_refl 1),
    if_pos ⟨by omega, hj, by rw [List.length_replicate]; omega⟩]

theorem dh_b_getD (n j : ℕ) (hn : 2 ≤ n) (hj : j < n - 1) :
    (dh_b n).getD j 0 = bval n (j + 1) := by
  rw [dh_b, getD_set, dh_bcx_1_length]
  by_cases hlast : j = n - 2
  · rw [if_pos ⟨hlast.symm, by omega⟩]
    congr 1
    omega
  · rw [if_neg (by intro h; exact hlast h.1.symm), dh_bcx_1_getD n j (by omega)]

theorem dh_c_getD0 (n : ℕ) (hn : 2 ≤ n) : (dh_c n).getD 0 0 = 2 := by
  rw [dh_c, dh_bcx, dh_loop_eq]
  dsimp only
  rw [foldl_set_getD_self _ _ _ _ _ (le_refl 1), if_neg (by omega), dh_c0, getD_set,
    if_pos ⟨rfl, by rw [List.length_replicate]; omega⟩]

theorem dh_c_getD (n j : ℕ) (hn : 2 ≤ n) (h1 : 1 ≤ j) (hj : j < n - 1) :
    (dh_c n).getD j 0 = cval n j := by
  rw [dh_c, dh_bcx, dh_loop_eq]
  dsimp only
  rw [foldl_set_getD_self _ _ _ _ _ (le_refl 1),
    if_pos ⟨h1, by omega, by simp [dh_c0]; omega⟩]

theorem dh_x_getD (n j : ℕ) (hn : 2 ≤ n) (hj : j < n) :
    (dh_x n).getD j 0 = xval n j := by
  rw [dh_x, getD_set, dh_bcx_22_length]
  by_cases hlast : j = n - 1
  · rw [if_pos ⟨hlast.symm, by omega⟩, hlast]
  · rw [if_neg (by intro h; exact hlast h.1.symm), dh_bcx, dh_loop_eq]
    dsimp only
    rw [foldl_set_getD_self _ _ _ _ _ (le_refl 1)]
    by_cases hmid : 1 ≤ j ∧ j < 1 + (n - 1 - 1)
    · rw [if_pos ⟨hmid.1, hmid.2, by rw [List.length_replicate]; omega⟩]
    · have hj0 : j = 0 := by omega
      rw [if_neg (by omega), hj0, getD_replicate, if_pos (by omega), xval]
      simp

theorem dh_a_getD (n j : ℕ) (hj : j < n) : (dh_a n).getD j 0 = -(2 + hstep n ^ 2) := by
  rw [dh_a, getD_replicate, if_pos hj]

theorem dh_z_getD0 (n : ℕ) (μ : ℝ) (hn : 1 ≤ n) :
    (dh_z n μ).getD 0 0 = μ * hstep n * (hstep n - 2) := by
  rw [dh_z, getD_set, if_pos (by simp; omega)]

theorem dh_z_getD (n j : ℕ) (μ : ℝ) (h1 : 1 ≤ j) : (dh_z n μ).getD j 0 = 0 := by
  rw [dh_z, getD_set, if_neg (by omega)]
  rw [getD_replicate]
  split <;> rfl

/-- C2: for every n at least 2 and every real mu, `solve_debye_huckel`
assembles, with `h = 10/n` and `x_i = 1 + i*h`: the main diagonal
`a[i] = -(2 + h^2)` for all i; interior rows with `b[i-1] = 1 - h/(2*x_i)`,
`c[i] = 1 + h/(2*x_i)`, `z[i] = 0`; boundary row 0 with `c[0] = 2` and
`z[0] = mu*h*(h-2)`; boundary row n-1 with `b[n-2] = 1 - h/(2*x_(n-1))`
and `z[n-1] = 0`; and returns the coordinate vector of length n with
`x[i] = 1 + i*h` for all i. -/
theorem claim_C2 (n : ℕ) (μ : ℝ) (hn : 2 ≤ n) :
    (∀ i < n, (dh_a n).getD i 0 = -(2 + hstep n ^ 2)) ∧
    (∀ i, 1 ≤ i → i ≤ n - 2 →
      (dh_b n).getD (i - 1) 0 = 1 - hstep n / (2 * (1 + i * hstep n)) ∧
      (dh_c n).getD i 0 = 1 + hstep n / (2 * (1 + i * hstep n)) ∧
      (dh_z n μ).getD i 0 = 0) ∧
    (dh_c n).getD 0 0 = 2 ∧
    (dh_z n μ).getD 0 0 = μ * hstep n * (hstep n - 2) ∧
    (dh_b n).getD (n - 2) 0 = 1 - hstep n / (2 * (1 + (↑(n - 1) : ℝ) * hstep n)) ∧
    (dh_z n μ).getD (n - 1) 0 = 0 ∧
    (solve_debye_huckel n μ).1 = dh_x n ∧
    (dh_x n).length = n ∧
    (∀ i < n, (dh_x n).getD i 0 = 1 + i * hstep n) := by
  have hB : ∀ i, 1 ≤ i → i ≤ n - 2 →
      (dh_b n).getD (i - 1) 0 = 1 - hstep n / (2 * (1 + i * hstep n)) ∧
      (dh_c n).getD i 0 = 1 + hstep n / (2 * (1 + i * hstep n)) ∧
      (dh_z n μ).getD i 0 = 0 := by
    intro i h1 h2
    have hb := dh_b_getD n (i - 1) hn (by omega)
    have hc := dh_c_getD n i hn h1 (by omega)
    refine ⟨?_, ?_, dh_z_getD n i μ h1⟩
    · rw [hb, show i - 1 + 1 = i from by omega, bval, xval]
    · rw [hc, cval, xval]
  have hbound : (dh_b n).getD (n - 2) 0 =
      1 - hstep n / (2 * (1 + (↑(n - 1) : ℝ) * hstep n)) := by
    have hb := dh_b_getD n (n - 2) hn (by omega)
    rw [hb, show n - 2 + 1 = n - 1 from by omega, bval, xval]
  exact ⟨fun i hi => dh_a_getD n i hi, hB, dh_c_getD0 n hn, dh_z_getD0 n μ (by omega),
    hbound, dh_z_getD n (n - 1) μ (by omega), rfl, dh_x_length n,
    fun i hi => by rw [dh_x_getD n i hn hi, xval]⟩

/-- Witness for C2: the hypothesis `2 ≤ n` holds at `n = 2`, and the
assembled system satisfies all the listed entry equations. -/
theorem claim_C2_witness :
    (2 ≤ 2) ∧
    ((∀ i < 2, (dh_a 2).getD i 0 = -(2 + hstep 2 ^ 2)) ∧
    (∀ i, 1 ≤ i → i ≤ 2 - 2 →
      (dh_b 2).getD (i - 1) 0 = 1 - hstep 2 / (2 * (1 + i * hstep 2)) ∧
      (dh_c 2).getD i 0 = 1 + hstep 2 / (2 * (1 + i * hstep 2)) ∧
      (dh_z 2 1).getD i 0 = 0) ∧
    (dh_c 2).getD 0 0 = 2 ∧
    (dh_z 2 1).getD 0 0 = 1 * hstep 2 * (hstep 2 - 2) ∧
    (dh_b 2).getD (2 - 2) 0 = 1 - hstep 2 / (2 * (1 + ((2 - 1 : ℕ) : ℝ) * hstep 2)) ∧
    (dh_z 2 1).getD (2 - 1) 0 = 0 ∧
    (solve_debye_huckel 2 1).1 = dh_x 2 ∧
    (dh_x 2).length = 2 ∧
    (∀ i < 2, (dh_x 2).getD i 0 = 1 + i * hstep 2)) :=
  ⟨by decide, claim_C2 2 1 (by decide)⟩

/-! ### The Poisson-Boltzmann fixed-point assembler
(`solve_poisson_boltzmann`, lines 125-156)

Same skeleton as `solve_debye_huckel`; additionally the right-hand side is
`z[i] = h^2 * g(u[i])` with `g(t) = sinh(t) - t`, and row 0 adds the same
boundary injection `mu*h*(h-2)`.  The loop writes `b[i-1]`, `c[i]`, `z[i]`,
`x[i]` for `i in range(1, n-1)`; afterwards `b[n-2]`, `z[n-1]`, `x[n-1]`
are set. -/

noncomputable def pb_g (t : ℝ) : ℝ := Real.sinh t - t

noncomputable def pb_zval (u : List ℝ) (n i : ℕ) : ℝ := hstep n ^ 2 * pb_g (u.getD i 0)

noncomputable def pb_a (n : ℕ) : List ℝ := List.replicate n (-(2 + hstep n ^ 2))

noncomputable def pb_c0 (n : ℕ) : List ℝ := (List.replicate (n - 1) 0).set 0 2

noncomputable def pb_z0 (u : List ℝ) (n : ℕ) (μ : ℝ) : List ℝ :=
  (List.replicate n 0).set 0
    (hstep n ^ 2 * pb_g (u.getD 0 0) + μ * hstep n * (hstep n - 2))

noncomputable def pb_loop (u : List ℝ) (n m : ℕ)
    (s : List ℝ × List ℝ × List ℝ × List ℝ) : List ℝ × List ℝ × List ℝ × List ℝ :=
  (List.range' 1 m).foldl (fun s i =>
    (s.1.set (i - 1) (bval n i), s.2.1.set i (cval n i),
     s.2.2.1.set i (pb_zval u n i), s.2.2.2.set i (xval n i))) s

noncomputable def pb_quad (u : List ℝ) (n : ℕ) (μ : ℝ) :
    List ℝ × List ℝ × List ℝ × List ℝ :=
  pb_loop u n (n - 1 - 1)
    (List.replicate (n - 1) 0, pb_c0 n, pb_z0 u n μ, List.replicate n 1)

noncomputable def pb_b (u : List ℝ) (n : ℕ) (μ : ℝ) : List ℝ :=
  (pb_quad u n μ).1.set (n - 2) (bval n (n - 1))

noncomputable def pb_c (u : List ℝ) (n : ℕ) (μ : ℝ) : List ℝ := (pb_quad u n μ).2.1

noncomputable def pb_z (u : List ℝ) (n : ℕ) (μ : ℝ) : List ℝ :=
  (pb_quad u n μ).2.2.1.set (n - 1) (pb_zval u n (n - 1))

noncomputable def pb_x (u : List ℝ) (n : ℕ) (μ : ℝ) : List ℝ :=
  (pb_quad u n μ).2.2.2.set (n - 1) (xval n (n - 1))

noncomputable def solve_poisson_boltzmann (u : List ℝ) (n : ℕ) (μ : ℝ) :
    List ℝ × List ℝ × List ℝ :=
  (pb_x u n μ,
   remontee (lutri (pb_a n) (pb_b u n μ) (pb_c u n μ)).2 (pb_c u n μ)
     (descente (lutri (pb_a n) (pb_b u n μ) (pb_c u n μ)).1 (pb_z u n μ)),
   pb_z u n μ)

theorem pb_loop_eq (u : List ℝ) (n m : ℕ) (s : List ℝ × List ℝ × List ℝ × List ℝ) :
    pb_loop u n m s =
      ((List.range' 1 m).foldl (fun l i => l.set (i - 1) (bval n i)) s.1,
       (List.range' 1 m).foldl (fun l i => l.set i (cval n i)) s.2.1,
       (List.range' 1 m).foldl (fun l i => l.set i (pb_zval u n i)) s.2.2.1,
       (List.range' 1 m).foldl (fun l i => l.set i (xval n i)) s.2.2.2) := by
  unfold pb_loop
  exact foldl_quad (fun (l : List ℝ) i => l.set (i - 1) (bval n i))
    (fun (l : List ℝ) i => l.set i (cval n i))
    (fun (l : List ℝ) i => l.set i (pb_zval u n i))
    (fun (l : List ℝ) i => l.set i (xval n i)) (List.range' 1 m) s

theorem pb_b_length (u : List ℝ) (n : ℕ) (μ : ℝ) : (pb_b u n μ).length = n - 1 := by
  rw [pb_b, List.length_set, pb_quad, pb_loop_eq]
  exact (foldl_length (by simp) _ _).trans (by simp)

theorem pb_c_length (u : List ℝ) (n : ℕ) (μ : ℝ) : (pb_c u n μ).length = n - 1 := by
  rw [pb_c, pb_quad, pb_loop_eq]
  exact (foldl_length (by simp) _ _).trans (by simp [pb_c0])

theorem pb_z_length (u : List ℝ) (n : ℕ) (μ : ℝ) : (pb_z u n μ).length = n := by
  rw [pb_z, List.length_set, pb_quad, pb_loop_eq]
  exact (foldl_length (by simp) _ _).trans (by simp [pb_z0])

theorem pb_x_length (u : List ℝ) (n : ℕ) (μ : ℝ) : (pb_x u n μ).length = n := by
  rw [pb_x, List.length_set, pb_quad, pb_loop_eq]
  exact (foldl_length (by simp) _ _).trans (by simp)

theorem pb_b_getD (u : List ℝ) (n j : ℕ) (μ : ℝ) (hn : 2 ≤ n) (hj : j < n - 1) :
    (pb_b u n μ).getD j 0 = bval n (j + 1) := by
  rw [pb_b, getD_set]
  have hlen : (pb_quad u n μ).1.length = n - 1 := by
    rw [pb_quad, pb_loop_eq]
    exact (foldl_length (by simp) _ _).trans (by simp)
  rw [hlen]
  by_cases hlast : j = n - 2
  · rw [if_pos ⟨hlast.symm, by omega⟩]
    congr 1
    omega
  · rw [if_neg (by intro h; exact hlast h.1.symm), pb_quad, pb_loop_eq]
    dsimp only
    rw [foldl_set_getD _ 1 _ _ _ _ (le_refl 1),
      if_pos ⟨by omega, by omega, by rw [List.length_replicate]; omega⟩]

theorem pb_c_getD0 (u : List ℝ) (n : ℕ) (μ : ℝ) (hn : 2 ≤ n) :
    (pb_c u n μ).getD 0 0 = 2 := by
  rw [pb_c, pb_quad, pb_loop_eq]
  dsimp only
  rw [foldl_set_getD_self _ _ _ _ _ (le_refl 1), if_neg (by omega), pb_c0, getD_set,
    if_pos ⟨rfl, by rw [List.length_replicate]; omega⟩]

theorem pb_c_getD (u : List ℝ) (n j : ℕ) (μ : ℝ) (hn : 2 ≤ n) (h1 : 1 ≤ j) (hj : j < n - 1) :
    (pb_c u n μ).getD j 0 = cval n j := by
  rw [pb_c, pb_quad, pb_loop_eq]
  dsimp only
  rw [foldl_set_getD_self _ _ _ _ _ (le_refl 1),
    if_pos ⟨h1, by omega, by simp [pb_c0]; omega⟩]

theorem pb_z_getD0 (u : List ℝ) (n : ℕ) (μ : ℝ) (hn : 2 ≤ n) :
    (pb_z u n μ).getD 0 0 =
      hstep n ^ 2 * pb_g (u.getD 0 0) + μ * hstep n * (hstep n - 2) := by
  rw [pb_z, getD_set, if_neg (by omega), pb_quad, pb_loop_eq]
  dsimp only
  rw [foldl_set_getD_self _ _ _ _ _ (le_refl 1), if_neg (by omega), pb_z0, getD_set,
    if_pos ⟨rfl, by rw [List.length_replicate]; omega⟩]

theorem pb_z_getD (u : List ℝ) (n j : ℕ) (μ : ℝ) (hn : 2 ≤ n) (h1 : 1 ≤ j) (hj : j < n) :
    (pb_z u n μ).getD j 0 = pb_zval u n j := by
  rw [pb_z, getD_set]
  have hlen : (pb_quad u n μ).2.2.1.length = n := by
    rw [pb_quad, pb_loop_eq]
    exact (foldl_length (by simp) _ _).trans (by simp [pb_z0])
  rw [hlen]
  by_cases hlast : j = n - 1
  · rw [if_pos ⟨hlast.symm, by omega⟩, hlast]
  · rw [if_neg (by intro h; exact hlast h.1.symm), pb_quad, pb_loop_eq]
    dsimp only
    rw [foldl_set_getD_self _ _ _ _ _ (le_refl 1),
      if_pos ⟨h1, by omega, by simp [pb_z0]; omega⟩]

theorem pb_x_getD (u : List ℝ) (n j : ℕ) (μ : ℝ) (hn : 2 ≤ n) (hj : j < n) :
    (pb_x u n μ).getD j 0 = xval n j := by
  rw [pb_x, getD_set]
  have hlen : (pb_quad u n μ).2.2.2.length = n := by
    rw [pb_quad, pb_loop_eq]
    exact (foldl_length (by simp) _ _).trans (by simp)
  rw [hlen]
  by_cases hlast : j = n - 1
  · rw [if_pos ⟨hlast.symm, by omega⟩, hlast]
  · rw [if_neg (by intro h; exact hlast h.1.symm), pb_quad, pb_loop_eq]
    dsimp only
    rw [foldl_set_getD_self _ _ _ _ _ (le_refl 1)]
    by_cases hmid : 1 ≤ j ∧ j < 1 + (n - 1 - 1)
    · rw [if_pos ⟨hmid.1, hmid.2, by rw [List.length_replicate]; omega⟩]
    · have hj0 : j = 0 := by omega
      rw [if_neg (by omega), hj0, getD_replicate, if_pos (by omega), xval]
      simp

/-- C4: for every iterate `u` of length n (n at least 2) and every real mu,
the tridiagonal matrix `(b, a, c)` assembled by `solve_poisson_boltzmann`
is identical to the one assembled by `solve_debye_huckel` for the same n
(it does not depend on u at all), and only the right-hand side differs:
`z[i] = h^2 * (sinh(u[i]) - u[i])` at every row, plus the boundary
injection `mu*h*(h-2)` added at row 0. -/
theorem claim_C4 (u : List ℝ) (n : ℕ) (μ : ℝ) (hn : 2 ≤ n) (hu : u.length = n) :
    pb_b u n μ = dh_b n ∧ pb_a n = dh_a n ∧ pb_c u n μ = dh_c n ∧
    (pb_z u n μ).length = n ∧
    (∀ i < n, (pb_z u n μ).getD i 0 =
      hstep n ^ 2 * (Real.sinh (u.getD i 0) - u.getD i 0) +
        (if i = 0 then μ * hstep n * (hstep n - 2) else 0)) := by
  clear hu
  refine ⟨?_, rfl, ?_, pb_z_length u n μ, ?_⟩
  · apply List.ext_getElem (by rw [pb_b_length, dh_b_length])
    intro j h1 h2
    rw [← List.getD_eq_getElem _ 0, ← List.getD_eq_getElem _ 0]
    have hj : j < n - 1 := by rwa [pb_b_length] at h1
    rw [pb_b_getD u n j μ hn hj, dh_b_getD n j hn hj]
  · apply List.ext_getElem (by rw [pb_c_length, dh_c_length])
    intro j h1 h2
    rw [← List.getD_eq_getElem _ 0, ← List.getD_eq_getElem _ 0]
    have hj : j < n - 1 := by rwa [pb_c_length] at h1
    by_cases hj0 : j = 0
    · rw [hj0, pb_c_getD0 u n μ hn, dh_c_getD0 n hn]
    · rw [pb_c_getD u n j μ hn (by omega) hj, dh_c_getD n j hn (by omega) hj]
  · intro i hi
    by_cases hi0 : i = 0
    · rw [hi0, pb_z_getD0 u n μ hn, if_pos rfl, pb_g]
    · rw [pb_z_getD u n i μ hn (by omega) hi, if_neg hi0, add_zero, pb_zval, pb_g]

/-- Witness for C4: at `n = 2`, `u = [0, 0]`, `mu = 1` the hypotheses hold
and the assembled fixed-point system coincides with the linear one except
for the right-hand side. -/
theorem claim_C4_witness :
    (2 ≤ 2 ∧ ([(0:ℝ), 0]).length = 2) ∧
    (pb_b [(0:ℝ), 0] 2 1 = dh_b 2 ∧ pb_a 2 = dh_a 2 ∧ pb_c [(0:ℝ), 0] 2 1 = dh_c 2 ∧
    (pb_z [(0:ℝ), 0] 2 1).length = 2 ∧
    (∀ i < 2, (pb_z [(0:ℝ), 0] 2 1).getD i 0 =
      hstep 2 ^ 2 * (Real.sinh (([(0:ℝ), 0]).getD i 0) - ([(0:ℝ), 0]).getD i 0) +
        (if i = 0 then 1 * hstep 2 * (hstep 2 - 2) else 0))) :=
  ⟨⟨by decide, by decide⟩, claim_C4 [(0:ℝ), 0] 2 1 (by decide) (by decide)⟩

/-! ### The Newton assembler (`solve_poisson_boltzmann_newton`, lines 249-284)

The code builds `a = -2 - h^2*cosh(u)` (entrywise over the iterate), the
geometric off-diagonals `b`, `c` and the residual `F`, then forms the
dense matrix `J = tridiag([b, a, c])` and returns
`u_next = u - J^(-1).dot(F)`.  Note: the initialisation `c = [0]*(n-1)` is
never followed by a `c[0] = 2` write (unlike `solve_debye_huckel` and
`solve_poisson_boltzmann`, line 71 resp. 138); the loop only sets
`c[1], ..., c[n-2]`, so `c[0]` stays 0 in the Jacobian even though
`F[0]` contains the term `+ 2*u[1]`. -/

noncomputable def newton_a (u : List ℝ) (n : ℕ) : List ℝ :=
  u.map fun t => -2 - hstep n ^ 2 * Real.cosh t

noncomputable def newton_F0 (u : List ℝ) (n : ℕ) (μ : ℝ) : ℝ :=
  -2 * u.getD 0 0 - hstep n ^ 2 * Real.sinh (u.getD 0 0) + 2 * u.getD 1 0 +
    μ * hstep n * (2 - hstep n)

noncomputable def newton_Fval (u : List ℝ) (n i : ℕ) : ℝ :=
  bval n i * u.getD (i - 1) 0 - 2 * u.getD i 0 - hstep n ^ 2 * Real.sinh (u.getD i 0) +
    cval n i * u.getD (i + 1) 0

noncomputable def newton_Flast (u : List ℝ) (n : ℕ) : ℝ :=
  bval n (n - 1) * u.getD (n - 2) 0 - 2 * u.getD (n - 1) 0 -
    hstep n ^ 2 * Real.sinh (u.getD (n - 1) 0)

noncomputable def newton_loop (u : List ℝ) (n m : ℕ)
    (s : List ℝ × List ℝ × List ℝ × List ℝ) : List ℝ × List ℝ × List ℝ × List ℝ :=
  (List.range' 1 m).foldl (fun s i =>
    (s.1.set (i - 1) (bval n i), s.2.1.set i (cval n i),
     s.2.2.1.set i (newton_Fval u n i), s.2.2.2.set i (xval n i))) s

noncomputable def newton_quad (u : List ℝ) (n : ℕ) (μ : ℝ) :
    List ℝ × List ℝ × List ℝ × List ℝ :=
  newton_loop u n (n - 1 - 1)
    (List.replicate (n - 1) 0, List.replicate (n - 1) 0,
     (List.replicate n 0).set 0 (newton_F0 u n μ), List.replicate n 1)

noncomputable def newton_b (u : List ℝ) (n : ℕ) (μ : ℝ) : List ℝ :=
  (newton_quad u n μ).1.set (n - 2) (bval n (n - 1))

noncomputable def newton_c (u : List ℝ) (n : ℕ) (μ : ℝ) : List ℝ := (newton_quad u n μ).2.1

noncomputable def newton_F (u : List ℝ) (n : ℕ) (μ : ℝ) : List ℝ :=
  (newton_quad u n μ).2.2.1.set (n - 1) (newton_Flast u n)

noncomputable def newton_x (u : List ℝ) (n : ℕ) (μ : ℝ) : List ℝ :=
  (newton_quad u n μ).2.2.2.set (n - 1) (xval n (n - 1))

/-- Dense tridiagonal matrix `np.diag(b, -1) + np.diag(a, 0) + np.diag(c, 1)`
(`tridiag`, lines 159-162). -/
def tridiagM {K : Type} [Field K] (b a c : List K) (n : ℕ) : Matrix (Fin n) (Fin n) K :=
  Matrix.of fun i j =>
    (if (j : ℕ) + 1 = (i : ℕ) then b.getD j 0 else 0) +
    (if (i : ℕ) = (j : ℕ) then a.getD i 0 else 0) +
    (if (i : ℕ) + 1 = (j : ℕ) then c.getD i 0 else 0)

noncomputable def solve_poisson_boltzmann_newton (u : List ℝ) (n : ℕ) (μ : ℝ) :
    List ℝ × List ℝ × List ℝ :=
  let J := tridiagM (newton_b u n μ) (newton_a u n) (newton_c u n μ) n
  (newton_x u n μ,
   List.ofFn fun i : Fin n =>
     u.getD i 0 - (J⁻¹.mulVec fun j : Fin n => (newton_F u n μ).getD j 0) i,
   newton_F u n μ)

/-- C3 evaluation at the failing input: at `n = 2` (any iterate, here
`u = [0, 0]`, `mu = 1`), the super-diagonal of the Jacobian built by
`solve_poisson_boltzmann_newton` is `[0]`, while the linear assembler (and
the true Jacobian of `F`, whose row 0 contains `+ 2*u[1]`) has `c = [2]`.
The claim's matrix J (off-diagonals identical to the linear assembler's)
is therefore not the matrix the code inverts. -/
theorem claim_C3_code_eval :
    newton_c [(0 : ℝ), 0] 2 1 = [0] ∧ dh_c 2 = [2] ∧
    newton_c [(0 : ℝ), 0] 2 1 ≠ dh_c 2 := by
  have h1 : newton_c [(0 : ℝ), 0] 2 1 = [0] := by
    norm_num [newton_c, newton_quad, newton_loop, List.range']
  have h2 : dh_c 2 = [2] := by
    norm_num [dh_c, dh_bcx, dh_loop, dh_c0, List.range', List.set]
  refine ⟨h1, h2, ?_⟩
  rw [h1, h2]
  simp

/-! ### Checked embedding of the solver kernel

A second embedding of `lutri`, `descente`, `remontee` mirrors Python's
runtime semantics: every list subscript is a checked access (`List.get?`;
an out-of-range subscript raises IndexError, modelled by `none`) and every
division checks its denominator (ZeroDivisionError, modelled by `none`).
The internal reads `v[i-1]`, `y[i-1]`, `x[0]` target lists the function
itself has just built, so they can never be out of range and are kept as
`getD`. -/

def divE {K : Type} [Field K] [DecidableEq K] (x y : K) : Option K :=
  if y = 0 then none else some (x / y)

def setE {α : Type} (l : List α) (i : ℕ) (v : α) : Option (List α) :=
  if i < l.length then some (l.set i v) else none

def lutriE {K : Type} [Field K] [DecidableEq K] (a b c : List K) :
    Option (List K × List K) := do
  let a0 ← a.get? 0
  (List.range' 1 (a.length - 1)).foldlM (fun lv i => do
    let bi ← b.get? (i - 1)
    let li ← divE bi (lv.2.getD (i - 1) 0)
    let ci ← c.get? (i - 1)
    let ai ← a.get? i
    pure (lv.1 ++ [li], lv.2 ++ [ai - li * ci])) (([] : List K), [a0])

def descenteE {K : Type} [Field K] [DecidableEq K] (l z : List K) : Option (List K) := do
  let z0 ← z.get? 0
  (List.range' 1 (z.length - 1)).foldlM (fun y i => do
    let zi ← z.get? i
    let li ← l.get? (i - 1)
    pure (y ++ [zi - li * y.getD (i - 1) 0])) [z0]

def remonteeE {K : Type} [Field K] [DecidableEq K] (v c y : List K) : Option (List K) := do
  let yn ← y.get? (y.length - 1)
  let vn ← v.get? (y.length - 1)
  let x0 ← divE yn vn
  (List.range (y.length - 1)).reverse.foldlM (fun x i => do
    let yi ← y.get? i
    let ci ← c.get? i
    let vi ← v.get? i
    let w ← divE (yi - ci * x.getD 0 0) vi
    pure (w :: x)) [x0]

theorem get?_eq_some_getD {α : Type} (l : List α) (i : ℕ) (d : α) (h : i < l.length) :
    l.get? i = some (l.getD i d) := by
  rw [List.getD_eq_getElem _ _ h, List.get?_eq_getElem?]
  exact List.getElem?_eq_getElem h

/-- On inputs satisfying the length contracts and with nonzero pivots, the
checked factorizer agrees with the total embedding: no runtime error
occurs and the same factors are produced. -/
theorem lutriE_eq {K : Type} [Field K] [DecidableEq K] (a b c : List K)
    (hb : b.length = a.length - 1) (hc : c.length = a.length - 1)
    (hn : 1 ≤ a.length) (hv : ∀ i < a.length, lutri_v a b c i ≠ 0) :
    lutriE a b c = some (lutri a b c) := by
  set n := a.length with hna
  set L : ℕ → K := lutri_l a b c with hL
  set V : ℕ → K := lutri_v a b c with hV
  have key : ∀ m s, 1 ≤ s → s + m ≤ n →
      (List.range' s m).foldlM (fun lv i => do
        let bi ← b.get? (i - 1)
        let li ← divE bi (lv.2.getD (i - 1) 0)
        let ci ← c.get? (i - 1)
        let ai ← a.get? i
        pure (lv.1 ++ [li], lv.2 ++ [ai - li * ci]))
        ((List.range (s - 1)).map L, (List.range s).map V) =
      some ((List.range (s + m - 1)).map L, (List.range (s + m)).map V) := by
    intro m
    induction m with
    | zero =>
      intro s hs hsm
      simp
    | succ m ih =>
      intro s hs hsm
      rw [List.range'_succ, List.foldlM_cons]
      have hb1 : b.get? (s - 1) = some (b.getD (s - 1) 0) :=
        get?_eq_some_getD b (s - 1) 0 (by rw [hb]; omega)
      have hc1 : c.get? (s - 1) = some (c.getD (s - 1) 0) :=
        get?_eq_some_getD c (s - 1) 0 (by rw [hc]; omega)
      have ha1 : a.get? s = some (a.getD s 0) :=
        get?_eq_some_getD a s 0 (by omega)
      have hvget : ((List.range s).map V).getD (s - 1) 0 = V (s - 1) := by
        rw [getD_range_map, if_pos (by omega)]
      have hdiv : divE (b.getD (s - 1) 0) (V (s - 1)) = some (L (s - 1)) := by
        rw [divE, if_neg (hv (s - 1) (by omega))]
        rfl
      have hLs : (List.range (s - 1)).map L ++ [L (s - 1)] = (List.range s).map L := by
        rw [show s = (s - 1) + 1 from by omega, List.range_succ, List.map_append]
        simp
      have hVs : a.getD s 0 - L (s - 1) * c.getD (s - 1) 0 = V s := by
        have h1 : V ((s - 1) + 1) =
            a.getD ((s - 1) + 1) 0 - b.getD (s - 1) 0 / V (s - 1) * c.getD (s - 1) 0 := rfl
        rw [show s = (s - 1) + 1 from by omega, h1, hL]
        rfl
      have hVls : (List.range s).map V ++ [V s] = (List.range (s + 1)).map V := by
        rw [List.range_succ, List.map_append]
        simp
      simp only [hb1, hc1, ha1, hvget, hdiv, Option.bind_eq_bind, Option.some_bind,
        Option.pure_def, hVs, hLs, hVls]
      have h2 := ih (s + 1) (by omega) (by omega)
      rw [show s + 1 - 1 = s from by omega] at h2
      simp only [Option.bind_eq_bind, Option.pure_def] at h2
      rw [show s + 1 + m = s + (m + 1) from by omega] at h2
      exact h2
  rw [lutriE, get?_eq_some_getD a 0 0 (by omega)]
  have h0 : (([] : List K), [a.getD 0 0]) =
      ((List.range (1 - 1)).map L, (List.range 1).map V) := rfl
  simp only [Option.bind_eq_bind, Option.some_bind, Option.pure_def]
  rw [h0, ← hna]
  have h2 := key (n - 1) 1 (le_refl 1) (by omega)
  simp only [Option.bind_eq_bind, Option.pure_def] at h2
  rw [h2, show 1 + (n - 1) - 1 = n - 1 from by omega, show 1 + (n - 1) = n from by omega]
  rfl

/-- On inputs of matching lengths the checked forward substitution agrees
with the total embedding. -/
theorem descenteE_eq {K : Type} [Field K] [DecidableEq K] (l z : List K)
    (hl : l.length = z.length - 1) (hn : 1 ≤ z.length) :
    descenteE l z = some (descente l z) := by
  set n := z.length with hnz
  set Y : ℕ → K := descente_y l z with hY
  have key : ∀ m s, 1 ≤ s → s + m ≤ n →
      (List.range' s m).foldlM (fun y i => do
        let zi ← z.get? i
        let li ← l.get? (i - 1)
        pure (y ++ [zi - li * y.getD (i - 1) 0]))
        ((List.range s).map Y) =
      some ((List.range (s + m)).map Y) := by
    intro m
    induction m with
    | zero =>
      intro s hs hsm
      simp
    | succ m ih =>
      intro s hs hsm
      rw [List.range'_succ, List.foldlM_cons]
      have hz1 : z.get? s = some (z.getD s 0) := get?_eq_some_getD z s 0 (by omega)
      have hl1 : l.get? (s - 1) = some (l.getD (s - 1) 0) :=
        get?_eq_some_getD l (s - 1) 0 (by rw [hl]; omega)
      have hyget : ((List.range s).map Y).getD (s - 1) 0 = Y (s - 1) := by
        rw [getD_range_map, if_pos (by omega)]
      have hYs : z.getD s 0 - l.getD (s - 1) 0 * Y (s - 1) = Y s := by
        have h1 : Y ((s - 1) + 1) =
            z.getD ((s - 1) + 1) 0 - l.getD (s - 1) 0 * Y (s - 1) := rfl
        rw [show s = (s - 1) + 1 from by omega, h1, Nat.add_sub_cancel]
      have hYls : (List.range s).map Y ++ [Y s] = (List.range (s + 1)).map Y := by
        rw [List.range_succ, List.map_append]
        simp
      simp only [hz1, hl1, hyget, Option.bind_eq_bind, Option.some_bind,
        Option.pure_def, hYs, hYls]
      have h2 := ih (s + 1) (by omega) (by omega)
      simp only [Option.bind_eq_bind, Option.pure_def] at h2
      rw [show s + 1 + m = s + (m + 1) from by omega] at h2
      exact h2
  rw [descenteE, get?_eq_some_getD z 0 0 (by omega)]
  have h0 : [z.getD 0 0] = (List.range 1).map Y := rfl
  simp only [Option.bind_eq_bind, Option.some_bind, Option.pure_def]
  rw [h0, ← hnz]
  have h2 := key (n - 1) 1 (le_refl 1) (by omega)
  simp only [Option.bind_eq_bind, Option.pure_def] at h2
  rw [h2, show 1 + (n - 1) = n from by omega]
  rfl

/-- On inputs of matching lengths and with nonzero diagonal entries the
checked backward substitution agrees with the total embedding. -/
theorem remonteeE_eq {K : Type} [Field K] [DecidableEq K] (v c y : List K)
    (hvlen : v.length = y.length) (hclen : c.length = y.length - 1)
    (hn : 1 ≤ y.length) (hvne : ∀ i < y.length, v.getD i 0 ≠ 0) :
    remonteeE v c y = some (remontee v c y) := by
  set n := y.length with hny
  set f : ℕ → K := fun k => remontee_x v c y (y.length - 1 - k) with hf
  have key : ∀ m, m ≤ n - 1 →
      (List.range m).reverse.foldlM (fun x i => do
        let yi ← y.get? i
        let ci ← c.get? i
        let vi ← v.get? i
        let w ← divE (yi - ci * x.getD 0 0) vi
        pure (w :: x))
        ((List.range' m (n - m)).map f) =
      some ((List.range' 0 n).map f) := by
    intro m
    induction m with
    | zero =>
      intro hm
      simp
    | succ m ih =>
      intro hm
      rw [show (List.range (m + 1)).reverse = m :: (List.range m).reverse from by
        rw [List.range_succ, List.reverse_append]; rfl, List.foldlM_cons]
      have hy1 : y.get? m = some (y.getD m 0) := get?_eq_some_getD y m 0 (by omega)
      have hc1 : c.get? m = some (c.getD m 0) :=
        get?_eq_some_getD c m 0 (by rw [hclen]; omega)
      have hv1 : v.get? m = some (v.getD m 0) :=
        get?_eq_some_getD v m 0 (by rw [hvlen]; omega)
      have hhead : ((List.range' (m + 1) (n - (m + 1))).map f).getD 0 0 = f (m + 1) := by
        rw [show n - (m + 1) = (n - (m + 2)) + 1 from by omega, List.range'_succ]
        simp
      have hwm : divE (y.getD m 0 - c.getD m 0 *
          ((List.range' (m + 1) (n - (m + 1))).map f).getD 0 0) (v.getD m 0) =
          some (f m) := by
        rw [hhead, divE, if_neg (hvne m (by omega))]
        have h1 : f m = (y.getD (y.length - 1 - ((n - 2 - m) + 1)) 0 -
            c.getD (y.length - 1 - ((n - 2 - m) + 1)) 0 * remontee_x v c y (n - 2 - m)) /
            v.getD (y.length - 1 - ((n - 2 - m) + 1)) 0 := by
          rw [hf]
          show remontee_x v c y (y.length - 1 - m) = _
          rw [show y.length - 1 - m = (n - 2 - m) + 1 from by omega]
          rfl
        rw [h1, show y.length - 1 - ((n - 2 - m) + 1) = m from by omega, hf]
        have h2 : remontee_x v c y (n - 2 - m) = f (m + 1) := by
          rw [hf]
          show _ = remontee_x v c y (y.length - 1 - (m + 1))
          rw [show y.length - 1 - (m + 1) = n - 2 - m from by omega]
        rw [h2, hf]
      have hcons : f m :: (List.range' (m + 1) (n - (m + 1))).map f =
          (List.range' m (n - m)).map f := by
        rw [show n - m = (n - (m + 1)) + 1 from by omega, List.range'_succ]
        rfl
      simp only [hy1, hc1, hv1, Option.bind_eq_bind, Option.some_bind, hwm,
        Option.pure_def, hcons]
      have h2 := ih (by omega)
      simp only [Option.bind_eq_bind, Option.pure_def] at h2
      exact h2
  rw [remonteeE, get?_eq_some_getD y (y.length - 1) 0 (by omega),
    get?_eq_some_getD v (y.length - 1) 0 (by rw [hvlen]; omega)]
  have hdiv0 : divE (y.getD (y.length - 1) 0) (v.getD (y.length - 1) 0) =
      some (f (n - 1)) := by
    rw [divE, if_neg (hvne (y.length - 1) (by omega))]
    have h1 : f (n - 1) = remontee_x v c y 0 := by
      show remontee_x v c y (y.length - 1 - (n - 1)) = remontee_x v c y 0
      rw [show y.length - 1 - (n - 1) = 0 from by omega]
    rw [h1]
    rfl
  have h0 : [f (n - 1)] = (List.range' (n - 1) (n - (n - 1))).map f := by
    rw [show n - (n - 1) = 1 from by omega]
    rfl
  simp only [Option.bind_eq_bind, Option.some_bind, Option.pure_def, hdiv0]
  rw [h0, show y.length - 1 = n - 1 from rfl]
  have h2 := key (n - 1) (le_refl (n - 1))
  simp only [Option.bind_eq_bind, Option.pure_def] at h2
  rw [h2]
  have hfin : (List.range' 0 n).map f = remontee v c y := by
    rw [remontee, ← List.range_eq_range']
  rw [hfin]

/-! ### Pivot bounds for the assembled Debye-Huckel system

For every n at least 2, the factored pivots of the assembled tridiagonal
system satisfy `v[i] <= -1`: the first pivot is `-(2 + h^2)` and the
update `v[i+1] = -(2 + h^2) - (b[i] * c[i]) / v[i]` loses at most
`1 + h^2/4` because `b[i] * c[i] = 1 + h^2 / (4 * x_i * x_(i+1))` for the
interior rows and `b[0] * c[0] < 2 <= 2 + h^2 = |v[0]|` for the first row.
In particular no pivot vanishes and the factorization, the substitutions
and the full linear solve run without dividing by zero. -/

theorem hstep_pos (n : ℕ) (hn : 2 ≤ n) : 0 < hstep n := by
  rw [hstep]
  have h1 : (0 : ℝ) < n := by exact_mod_cast (by omega : 0 < n)
  positivity

theorem xval_ge_one (n i : ℕ) (hn : 2 ≤ n) : 1 ≤ xval n i := by
  rw [xval]
  have h1 := hstep_pos n hn
  have h2 : (0 : ℝ) ≤ i * hstep n := mul_nonneg (Nat.cast_nonneg i) (le_of_lt h1)
  linarith

theorem xval_succ (n i : ℕ) : xval n (i + 1) = xval n i + hstep n := by
  rw [xval, xval]
  push_cast
  ring

theorem bval_bounds (n i : ℕ) (hn : 2 ≤ n) (hi : 1 ≤ i) :
    0 < bval n i ∧ bval n i < 1 := by
  have hh := hstep_pos n hn
  have hx := xval_ge_one n i hn
  have hxgt : hstep n < xval n i := by
    rw [xval]
    have h1 : (1 : ℝ) ≤ i := by exact_mod_cast hi
    nlinarith
  have hq1 : 0 < hstep n / (2 * xval n i) := by positivity
  have hq2 : hstep n / (2 * xval n i) < 1 / 2 := by
    rw [div_lt_div_iff (by positivity) (by norm_num)]
    nlinarith
  constructor
  · rw [bval]; linarith
  · rw [bval]; linarith

theorem bc_bound (n i : ℕ) (hn : 2 ≤ n) (hi : 1 ≤ i) :
    0 ≤ bval n (i + 1) * cval n i ∧
      bval n (i + 1) * cval n i ≤ 1 + hstep n ^ 2 / 4 := by
  have hh := hstep_pos n hn
  have hX := xval_ge_one n i hn
  have hY := xval_ge_one n (i + 1) hn
  have hXY := xval_succ n i
  have hXne : xval n i ≠ 0 := by linarith
  have hYne : xval n (i + 1) ≠ 0 := by linarith
  have hid : bval n (i + 1) * cval n i =
      1 + hstep n ^ 2 / (4 * xval n i * xval n (i + 1)) := by
    rw [bval, cval, hXY]
    field_simp
    ring
  constructor
  · have hb := bval_bounds n (i + 1) hn (by omega)
    have hc : 0 < cval n i := by
      rw [cval]
      have h2 : 0 < hstep n / (2 * xval n i) := by positivity
      linarith
    exact mul_nonneg (le_of_lt hb.1) (le_of_lt hc)
  · rw [hid]
    have h1 : hstep n ^ 2 / (4 * xval n i * xval n (i + 1)) ≤ hstep n ^ 2 / 4 := by
      apply div_le_div_of_nonneg_left (sq_nonneg _) (by norm_num)
      nlinarith
    linarith

theorem dhV_le_neg_one (n : ℕ) (hn : 2 ≤ n) :
    ∀ i < n, lutri_v (dh_a n) (dh_b n) (dh_c n) i ≤ -1 := by
  have hh := hstep_pos n hn
  have hV0 : lutri_v (dh_a n) (dh_b n) (dh_c n) 0 = -(2 + hstep n ^ 2) := by
    show (dh_a n).getD 0 0 = _
    exact dh_a_getD n 0 (by omega)
  intro i
  induction i with
  | zero =>
    intro hi
    rw [hV0]
    nlinarith [sq_nonneg (hstep n)]
  | succ i ih =>
    intro hi
    have hVi := ih (by omega)
    have heq : lutri_v (dh_a n) (dh_b n) (dh_c n) (i + 1) =
        (dh_a n).getD (i + 1) 0 -
          (dh_b n).getD i 0 / lutri_v (dh_a n) (dh_b n) (dh_c n) i *
            (dh_c n).getD i 0 := rfl
    rw [heq, dh_a_getD n (i + 1) hi, dh_b_getD n i hn (by omega)]
    by_cases hi0 : i = 0
    · subst hi0
      rw [dh_c_getD0 n hn, hV0]
      have hb := bval_bounds n 1 hn (le_refl 1)
      have h2pos : (0 : ℝ) < 2 + hstep n ^ 2 := by positivity
      have h3 : bval n (0 + 1) / -(2 + hstep n ^ 2) * 2 =
          -(bval n 1 * 2 / (2 + hstep n ^ 2)) := by
        rw [div_neg]
        ring
      rw [h3]
      have h4 : bval n 1 * 2 / (2 + hstep n ^ 2) ≤ 1 := by
        rw [div_le_one h2pos]
        nlinarith
      nlinarith [sq_nonneg (hstep n)]
    · have h1i : 1 ≤ i := by omega
      rw [dh_c_getD n i hn h1i (by omega)]
      have hbc := bc_bound n i hn h1i
      have hkey : bval n (i + 1) / lutri_v (dh_a n) (dh_b n) (dh_c n) i * cval n i =
          -((bval n (i + 1) * cval n i) /
            (-(lutri_v (dh_a n) (dh_b n) (dh_c n) i))) := by
        ring
      rw [hkey]
      have h4 : bval n (i + 1) * cval n i /
          (-(lutri_v (dh_a n) (dh_b n) (dh_c n) i)) ≤ bval n (i + 1) * cval n i :=
        div_le_self hbc.1 (by linarith)
      nlinarith [sq_nonneg (hstep n)]

theorem dhV_ne_zero (n : ℕ) (hn : 2 ≤ n) :
    ∀ i < n, lutri_v (dh_a n) (dh_b n) (dh_c n) i ≠ 0 := by
  intro i hi h
  have := dhV_le_neg_one n hn i hi
  rw [h] at this
  linarith

/-! ### Checked embedding of the Debye-Huckel assembler

`solve_debye_huckelE` mirrors `solve_debye_huckel` statement by statement
with Python's runtime checks: the initial `h = 10 / n` division, each list
write (an out-of-range write raises IndexError) and the solver calls. -/

noncomputable def dh_loopE (n m : ℕ) (bcx : List ℝ × List ℝ × List ℝ) :
    Option (List ℝ × List ℝ × List ℝ) :=
  (List.range' 1 m).foldlM (fun bcx i => do
    let b ← setE bcx.1 (i - 1) (bval n i)
    let c ← setE bcx.2.1 i (cval n i)
    let x ← setE bcx.2.2 i (xval n i)
    pure (b, c, x)) bcx

noncomputable def solve_debye_huckelE (n : ℕ) (μ : ℝ) :
    Option (List ℝ × List ℝ × (List ℝ × List ℝ × List ℝ)) := do
  let h ← divE 10 (n : ℝ)
  let x0 : List ℝ := List.replicate n 1
  let b0 : List ℝ := List.replicate (n - 1) 0
  let a : List ℝ := List.replicate n (-(2 + h ^ 2))
  let c0 : List ℝ := List.replicate (n - 1) 0
  let z0 : List ℝ := List.replicate n 0
  let c1 ← setE c0 0 2
  let z ← setE z0 0 (μ * h * (h - 2))
  let bcx ← dh_loopE n (n - 1 - 1) (b0, c1, x0)
  let b ← setE bcx.1 (n - 2) (bval n (n - 1))
  let x ← setE bcx.2.2 (n - 1) (xval n (n - 1))
  let lv ← lutriE a b bcx.2.1
  let y ← descenteE lv.1 z
  let u ← remonteeE lv.2 bcx.2.1 y
  pure (x, u, (b, a, bcx.2.1))

theorem dh_loopE_eq (n : ℕ) : ∀ (m s : ℕ) (bcx : List ℝ × List ℝ × List ℝ),
    bcx.1.length = n - 1 → bcx.2.1.length = n - 1 → bcx.2.2.length = n →
    1 ≤ s → s + m < n →
    (List.range' s m).foldlM (fun bcx i => do
      let b ← setE bcx.1 (i - 1) (bval n i)
      let c ← setE bcx.2.1 i (cval n i)
      let x ← setE bcx.2.2 i (xval n i)
      pure (b, c, x)) bcx =
    some ((List.range' s m).foldl (fun bcx i =>
      (bcx.1.set (i - 1) (bval n i), bcx.2.1.set i (cval n i),
       bcx.2.2.set i (xval n i))) bcx) := by
  intro m
  induction m with
  | zero =>
    intro s bcx h1 h2 h3 hs hsm
    simp
  | succ m ih =>
    intro s bcx h1 h2 h3 hs hsm
    rw [List.range'_succ, List.foldlM_cons, List.foldl_cons]
    have hb : setE bcx.1 (s - 1) (bval n s) = some (bcx.1.set (s - 1) (bval n s)) := by
      rw [setE, if_pos (by rw [h1]; omega)]
    have hc : setE bcx.2.1 s (cval n s) = some (bcx.2.1.set s (cval n s)) := by
      rw [setE, if_pos (by rw [h2]; omega)]
    have hx : setE bcx.2.2 s (xval n s) = some (bcx.2.2.set s (xval n s)) := by
      rw [setE, if_pos (by rw [h3]; omega)]
    simp only [hb, hc, hx, Option.bind_eq_bind, Option.some_bind, Option.pure_def]
    have h4 := ih (s + 1)
      (bcx.1.set (s - 1) (bval n s), bcx.2.1.set s (cval n s), bcx.2.2.set s (xval n s))
      (by simpa using h1) (by simpa using h2) (by simpa using h3) (by omega) (by omega)
    simp only [Option.bind_eq_bind, Option.pure_def] at h4
    exact h4

/-- C10 counterexample: the claim includes `n = 1` among the inputs on
which `solve_debye_huckel` completes without error, but at `n = 1` the
super-diagonal buffer `c = [0] * (n - 1)` is empty and the very first
boundary write `c[0] = 2` (line 71) raises an IndexError: the checked
embedding returns `none`. -/
theorem claim_C10_counterexample : 0 < 1 ∧ solve_debye_huckelE 1 1 = none := by
  refine ⟨by decide, ?_⟩
  rw [solve_debye_huckelE]
  have hdiv : divE (10 : ℝ) ((1 : ℕ) : ℝ) = some 10 := by
    rw [divE, if_neg (by norm_num)]
    norm_num
  rw [hdiv]
  simp only [Option.bind_eq_bind, Option.some_bind]
  have hset : setE (List.replicate (1 - 1) (0 : ℝ)) 0 2 = none := by
    rw [setE, if_neg (by simp)]
  rw [hset]
  rfl

/-- C10 (amended): for every n at least 2 and every real mu, the checked
embedding of `solve_debye_huckel` completes without any runtime error
(no out-of-range write and no zero pivot, by `dhV_le_neg_one`), returns
exactly the result of the total embedding, and the coordinate vector `x`,
the solution `u`, and the diagonals `(b, a, c)` have lengths n, n, and
(n-1, n, n-1) respectively. -/
theorem claim_C10 (n : ℕ) (μ : ℝ) (hn : 2 ≤ n) :
    solve_debye_huckelE n μ = some (solve_debye_huckel n μ) ∧
    (solve_debye_huckel n μ).1.length = n ∧
    (solve_debye_huckel n μ).2.1.length = n ∧
    (solve_debye_huckel n μ).2.2.1.length = n - 1 ∧
    (solve_debye_huckel n μ).2.2.2.1.length = n ∧
    (solve_debye_huckel n μ).2.2.2.2.length = n - 1 := by
  have hnR : ((n : ℕ) : ℝ) ≠ 0 := by
    have : (0 : ℝ) < n := by exact_mod_cast (by omega : 0 < n)
    linarith
  have hdiv : divE (10 : ℝ) ((n : ℕ) : ℝ) = some (hstep n) := by
    rw [divE, if_neg hnR]
    rfl
  have hc1 : setE (List.replicate (n - 1) (0 : ℝ)) 0 2 = some (dh_c0 n) := by
    rw [setE, if_pos (by simp; omega)]
    rfl
  have hz1 : setE (List.replicate n (0 : ℝ)) 0 (μ * hstep n * (hstep n - 2)) =
      some (dh_z n μ) := by
    rw [setE, if_pos (by simp; omega)]
    rfl
  have hloop : dh_loopE n (n - 1 - 1) (List.replicate (n - 1) 0, dh_c0 n, List.replicate n 1) =
      some (dh_bcx n) := by
    rw [dh_loopE]
    have h4 := dh_loopE_eq n (n - 1 - 1) 1
      (List.replicate (n - 1) 0, dh_c0 n, List.replicate n 1)
      (by simp) (by simp [dh_c0]) (by simp) (le_refl 1) (by omega)
    simp only [Option.bind_eq_bind, Option.pure_def] at h4 ⊢
    rw [h4]
    rfl
  have hbset : setE (dh_bcx n).1 (n - 2) (bval n (n - 1)) = some (dh_b n) := by
    rw [setE, if_pos (by rw [dh_bcx_1_length]; omega)]
    rfl
  have hxset : setE (dh_bcx n).2.2 (n - 1) (xval n (n - 1)) = some (dh_x n) := by
    rw [setE, if_pos (by rw [dh_bcx_22_length]; omega)]
    rfl
  have ha : List.replicate n (-(2 + hstep n ^ 2)) = dh_a n := rfl
  have hcc : (dh_bcx n).2.1 = dh_c n := rfl
  have hlut : lutriE (dh_a n) (dh_b n) (dh_c n) =
      some (lutri (dh_a n) (dh_b n) (dh_c n)) := by
    apply lutriE_eq
    · rw [dh_b_length, dh_a_length]
    · rw [dh_c_length, dh_a_length]
    · rw [dh_a_length]; omega
    · rw [dh_a_length]
      exact dhV_ne_zero n hn
  have hylen : (dh_z n μ).length = n := dh_z_length n μ
  have hdesc : descenteE (lutri (dh_a n) (dh_b n) (dh_c n)).1 (dh_z n μ) =
      some (descente (lutri (dh_a n) (dh_b n) (dh_c n)).1 (dh_z n μ)) := by
    apply descenteE_eq
    · simp [lutri, dh_a_length, hylen]
    · rw [hylen]; omega
  have hrem : remonteeE (lutri (dh_a n) (dh_b n) (dh_c n)).2 (dh_c n)
      (descente (lutri (dh_a n) (dh_b n) (dh_c n)).1 (dh_z n μ)) =
      some (remontee (lutri (dh_a n) (dh_b n) (dh_c n)).2 (dh_c n)
        (descente (lutri (dh_a n) (dh_b n) (dh_c n)).1 (dh_z n μ))) := by
    apply remonteeE_eq
    · simp [lutri, descente, dh_a_length, hylen]
    · simp [descente, dh_c_length, hylen]
    · simp [descente, hylen]; omega
    · intro i hi
      have hi2 : i < n := by simpa [descente, hylen] using hi
      have h5 : ((List.range (dh_a n).length).map
          (lutri_v (dh_a n) (dh_b n) (dh_c n))).getD i 0 =
          lutri_v (dh_a n) (dh_b n) (dh_c n) i := by
        rw [getD_range_map, if_pos (by rw [dh_a_length]; omega)]
      show ((lutri (dh_a n) (dh_b n) (dh_c n)).2).getD i 0 ≠ 0
      rw [lutri]
      dsimp only
      rw [h5]
      exact dhV_ne_zero n hn i hi2
  refine ⟨?_, dh_x_length n, ?_, dh_b_length n, dh_a_length n, dh_c_length n⟩
  · rw [solve_debye_huckelE, hdiv]
    simp only [Option.bind_eq_bind, Option.some_bind, Option.pure_def, ha, hcc,
      hc1, hz1, hloop, hbset, hxset, hlut, hdesc, hrem]
    rfl
  · simp [solve_debye_huckel, remontee, descente, hylen]

/-- Witness for C10: at `n = 2`, `mu = 1` the hypothesis holds, the
checked run completes, and all output lengths are as stated. -/
theorem claim_C10_witness :
    (2 ≤ 2) ∧
    (solve_debye_huckelE 2 1 = some (solve_debye_huckel 2 1) ∧
    (solve_debye_huckel 2 1).1.length = 2 ∧
    (solve_debye_huckel 2 1).2.1.length = 2 ∧
    (solve_debye_huckel 2 1).2.2.1.length = 2 - 1 ∧
    (solve_debye_huckel 2 1).2.2.2.1.length = 2 ∧
    (solve_debye_huckel 2 1).2.2.2.2.length = 2 - 1) :=
  ⟨by decide, claim_C10 2 1 (by decide)⟩

/-- C9 counterexample: the claim asserts that inputs violating the n / n-1
length contracts fail fast with a dimension error before any computation.
On `a = [1, 2]`, `b = [3, 4]`, `c = [5]` the sub-diagonal has length 2
instead of n - 1 = 1, yet the factorizer raises nothing and happily
returns a normal result (the surplus entry is ignored). -/
theorem claim_C9_counterexample :
    ¬ (([3, 4] : List ℚ).length = ([1, 2] : List ℚ).length - 1) ∧
    lutriE ([1, 2] : List ℚ) [3, 4] [5] = some ([3], [1, -13]) := by
  refine ⟨by decide, ?_⟩
  norm_num [lutriE, divE, List.range']

/-- C9 (amended): the solver kernel performs no dimension validation at
all.  A call whose inputs violate the n / n-1 contracts either completes
normally, with surplus entries silently ignored (over-long `b`), or fails
only at the first out-of-range subscript in the middle of the computation
(under-long `b`, `l`, `v`), never with an up-front dimension check. -/
theorem claim_C9 :
    lutriE ([1, 2] : List ℚ) [3, 4] [5] = some ([3], [1, -13]) ∧
    lutriE ([1, 2] : List ℚ) [] [5] = none ∧
    descenteE ([] : List ℚ) [1, 2] = none ∧
    remonteeE ([1] : List ℚ) [] [2, 3] = none := by
  refine ⟨?_, ?_, ?_, ?_⟩
  · norm_num [lutriE, divE, List.range']
  · norm_num [lutriE, divE, List.range']
  · norm_num [descenteE, List.range']
  · norm_num [remonteeE, divE]

/-- C8: on the reference fixture `sub = [-4, -3, -2, 2]`,
`diag = [-2, 5, -1, 4, -2]`, `sup = [1, 2, -1, 1]`, the factorization
`lutri` returns exactly `l = [2, -1, -2, 1]` and `v = [-2, 3, 1, 2, -3]`. -/
theorem claim_C8 :
    lutri ([-2, 5, -1, 4, -2] : List ℝ) [-4, -3, -2, 2] [1, 2, -1, 1] =
      ([2, -1, -2, 1], [-2, 3, 1, 2, -3]) := by
  norm_num [lutri, lutri_l, lutri_v, List.range_succ]

/-! ### The fixed-point driver (`calcul_uk0`, lines 165-191)

The state of the while loop carries the iterate `u`, the two residual
vectors `ecart1`, `ecart2` and the counter `k`; it also carries the last
plot abscissa `x` (a Python local that is undefined until the first pass,
modelled as `Option`), the most recent right-hand side `z` and the
previous iterate `uprev` (Python locals `z` and the pre-assignment value
of `u`), which the convergence property talks about.  The loop runs while
NOT (`k > 200` or (`norm(ecart1, inf) < mu1` and `norm(ecart2, inf) < mu2`))
with `mu1 = 10e-12` and `mu2 = 10e-9`; each pass calls
`solve_poisson_boltzmann`, recomputes `ecart1 = A.dot(u_next) - z` and
`ecart2 = u_next - u`, replaces `u` and increments `k`.  The reference
operator `A = tridiag(diags)` is fixed at initialisation.  Termination is
structural: each pass increases `k` and the loop exits as soon as
`k > 200`, so at most 201 passes run (measure `201 - k`). -/

noncomputable def linf (l : List ℝ) : ℝ := l.foldr (fun a r => max |a| r) 0

def subL (p q : List ℝ) : List ℝ := List.zipWith (fun a b => a - b) p q

noncomputable def matVecL {n : ℕ} (A : Matrix (Fin n) (Fin n) ℝ) (w : List ℝ) : List ℝ :=
  List.ofFn fun i => A.mulVec (fun j => w.getD j 0) i

structure UK0State where
  x : Option (List ℝ)
  u : List ℝ
  z : List ℝ
  uprev : List ℝ
  ecart1 : List ℝ
  ecart2 : List ℝ
  k : ℕ

noncomputable def uk0_done (s : UK0State) : Prop :=
  s.k > 200 ∨ (linf s.ecart1 < 10e-12 ∧ linf s.ecart2 < 10e-9)

noncomputable instance uk0_done_dec (s : UK0State) : Decidable (uk0_done s) :=
  inferInstanceAs (Decidable (s.k > 200 ∨ (linf s.ecart1 < 10e-12 ∧ linf s.ecart2 < 10e-9)))

noncomputable def uk0_step (μ : ℝ) (n : ℕ) (A : Matrix (Fin n) (Fin n) ℝ)
    (s : UK0State) : UK0State :=
  let r := solve_poisson_boltzmann s.u n μ
  { x := some r.1
    u := r.2.1
    z := r.2.2
    uprev := s.u
    ecart1 := subL (matVecL A r.2.1) r.2.2
    ecart2 := subL r.2.1 s.u
    k := s.k + 1 }

noncomputable def uk0_loop (μ : ℝ) (n : ℕ) (A : Matrix (Fin n) (Fin n) ℝ)
    (s : UK0State) : UK0State :=
  if uk0_done s then s
  else uk0_loop μ n A (uk0_step μ n A s)
termination_by 201 - s.k
decreasing_by
  rename_i h
  have hk : s.k ≤ 200 := by
    by_contra hk
    exact h (Or.inl (by omega))
  simp only [uk0_step]
  omega

noncomputable def uk0_A : Matrix (Fin 1000) (Fin 1000) ℝ :=
  tridiagM (dh_b 1000) (dh_a 1000) (dh_c 1000) 1000

noncomputable def uk0_init (μ : ℝ) : UK0State :=
  { x := none
    u := (solve_debye_huckel 1000 μ).2.1
    z := []
    uprev := (solve_debye_huckel 1000 μ).2.1
    ecart1 := matVecL uk0_A (solve_debye_huckel 1000 μ).2.1
    ecart2 := (solve_debye_huckel 1000 μ).2.1
    k := 0 }

noncomputable def calcul_uk0 (μ : ℝ) : Option (List ℝ) × List ℝ × ℕ :=
  ((uk0_loop μ 1000 uk0_A (uk0_init μ)).x,
   (uk0_loop μ 1000 uk0_A (uk0_init μ)).u,
   (uk0_loop μ 1000 uk0_A (uk0_init μ)).k)

theorem uk0_loop_k_le (μ : ℝ) (n : ℕ) (A : Matrix (Fin n) (Fin n) ℝ) :
    ∀ s, s.k ≤ (uk0_loop μ n A s).k := by
  have H : ∀ (fuel : ℕ) (s : UK0State), 201 - s.k ≤ fuel →
      s.k ≤ (uk0_loop μ n A s).k := by
    intro fuel
    induction fuel with
    | zero =>
      intro s hf
      have hd : uk0_done s := Or.inl (by omega)
      rw [uk0_loop, if_pos hd]
    | succ fuel ih =>
      intro s hf
      by_cases hd : uk0_done s
      · rw [uk0_loop, if_pos hd]
      · rw [uk0_loop, if_neg hd]
        have hk : s.k ≤ 200 := by
          by_contra hk
          exact hd (Or.inl (by omega))
        have h2 := ih (uk0_step μ n A s) (by simp only [uk0_step]; omega)
        calc s.k ≤ (uk0_step μ n A s).k := by simp [uk0_step]
        _ ≤ _ := h2
  exact fun s => H 201 s (by omega)

theorem uk0_loop_done (μ : ℝ) (n : ℕ) (A : Matrix (Fin n) (Fin n) ℝ) :
    ∀ s, uk0_done (uk0_loop μ n A s) := by
  have H : ∀ (fuel : ℕ) (s : UK0State), 201 - s.k ≤ fuel →
      uk0_done (uk0_loop μ n A s) := by
    intro fuel
    induction fuel with
    | zero =>
      intro s hf
      have hd : uk0_done s := Or.inl (by omega)
      rw [uk0_loop, if_pos hd]
      exact hd
    | succ fuel ih =>
      intro s hf
      by_cases hd : uk0_done s
      · rw [uk0_loop, if_pos hd]
        exact hd
      · rw [uk0_loop, if_neg hd]
        have hk : s.k ≤ 200 := by
          by_contra hk
          exact hd (Or.inl (by omega))
        exact ih (uk0_step μ n A s) (by simp only [uk0_step]; omega)
  exact fun s => H 201 s (by omega)

theorem uk0_loop_last_step (μ : ℝ) (n : ℕ) (A : Matrix (Fin n) (Fin n) ℝ) :
    ∀ s, s.k < (uk0_loop μ n A s).k →
      ∃ t, uk0_loop μ n A s = uk0_step μ n A t := by
  have H : ∀ (fuel : ℕ) (s : UK0State), 201 - s.k ≤ fuel →
      s.k < (uk0_loop μ n A s).k → ∃ t, uk0_loop μ n A s = uk0_step μ n A t := by
    intro fuel
    induction fuel with
    | zero =>
      intro s hf hlt
      have hd : uk0_done s := Or.inl (by omega)
      rw [uk0_loop, if_pos hd] at hlt
      omega
    | succ fuel ih =>
      intro s hf hlt
      by_cases hd : uk0_done s
      · rw [uk0_loop, if_pos hd] at hlt
        omega
      · have hk : s.k ≤ 200 := by
          by_contra hk
          exact hd (Or.inl (by omega))
        rw [uk0_loop, if_neg hd]
        by_cases hd2 : uk0_done (uk0_step μ n A s)
        · exact ⟨s, by rw [uk0_loop, if_pos hd2]⟩
        · apply ih (uk0_step μ n A s) (by simp only [uk0_step]; omega)
          rw [uk0_loop, if_neg hd2]
          have h3 := uk0_loop_k_le μ n A (uk0_step μ n A (uk0_step μ n A s))
          have h4 : (uk0_step μ n A (uk0_step μ n A s)).k = (uk0_step μ n A s).k + 1 := by
            simp [uk0_step]
          omega
  exact fun s => H 201 s (by omega)

theorem descente_y_zero {K : Type} [Field K] (l z : List K)
    (hz : ∀ i, z.getD i 0 = 0) : ∀ i, descente_y l z i = 0 := by
  intro i
  induction i with
  | zero =>
    show z.getD 0 0 = 0
    exact hz 0
  | succ i ih =>
    show z.getD (i + 1) 0 - l.getD i 0 * descente_y l z i = 0
    rw [hz, ih]
    ring

theorem remontee_x_zero {K : Type} [Field K] (v c y : List K)
    (hy : ∀ i, y.getD i 0 = 0) : ∀ j, remontee_x v c y j = 0 := by
  intro j
  induction j with
  | zero =>
    show y.getD (y.length - 1) 0 / v.getD (y.length - 1) 0 = 0
    rw [hy]
    exact zero_div _
  | succ j ih =>
    show (y.getD (y.length - 1 - (j + 1)) 0 -
        c.getD (y.length - 1 - (j + 1)) 0 * remontee_x v c y j) /
        v.getD (y.length - 1 - (j + 1)) 0 = 0
    rw [hy, ih, mul_zero, sub_zero, zero_div]

/-- C6: whenever the fixed-point loop of `calcul_uk0` returns without
hitting the iteration cap (final `k` at most 200) after at least one
pass, the final residuals are exactly `ecart1 = A·u - z` (with `z` the
right-hand side of the last pass) and `ecart2 = u - uprev`, and they
satisfy the dual tolerance with the exact thresholds `1e-11` and `1e-8`
(the literals `10e-12` and `10e-9`).  The theorem is stated for the loop
from any starting state; `calcul_uk0` runs it from `uk0_init mu` with
`k = 0`, `n = 1000` and the reference operator `uk0_A`. -/
theorem claim_C6 (μ : ℝ) (n : ℕ) (A : Matrix (Fin n) (Fin n) ℝ) (s : UK0State)
    (hcap : (uk0_loop μ n A s).k ≤ 200)
    (hone : s.k < (uk0_loop μ n A s).k) :
    (uk0_loop μ n A s).ecart1 =
      subL (matVecL A (uk0_loop μ n A s).u) (uk0_loop μ n A s).z ∧
    (uk0_loop μ n A s).ecart2 =
      subL (uk0_loop μ n A s).u (uk0_loop μ n A s).uprev ∧
    linf (uk0_loop μ n A s).ecart1 < 1e-11 ∧
    linf (uk0_loop μ n A s).ecart2 < 1e-8 := by
  obtain ⟨t, ht⟩ := uk0_loop_last_step μ n A s hone
  have hdone := uk0_loop_done μ n A s
  have htol : linf (uk0_loop μ n A s).ecart1 < 10e-12 ∧
      linf (uk0_loop μ n A s).ecart2 < 10e-9 := by
    rcases hdone with h | h
    · omega
    · exact h
  have he1 : (10e-12 : ℝ) = 1e-11 := by norm_num
  have he2 : (10e-9 : ℝ) = 1e-8 := by norm_num
  refine ⟨?_, ?_, by rw [← he1]; exact htol.1, by rw [← he2]; exact htol.2⟩
  · rw [ht]
    rfl
  · rw [ht]
    rfl

/-- Witness for C6: from a start state with nonzero residuals at `n = 2`,
`mu = 0`, `u = [0, 0]` and the zero reference operator, the loop performs
exactly one pass (the fixed-point step maps the zero iterate to itself
since `sinh 0 = 0`), exits with `k = 1 <= 200`, and the final residuals
satisfy the dual tolerance. -/
theorem claim_C6_witness :
    ((uk0_loop 0 2 0 ⟨none, [0, 0], [], [0, 0], [1], [1], 0⟩).k ≤ 200 ∧
      (⟨none, [0, 0], [], [0, 0], [1], [1], 0⟩ : UK0State).k <
        (uk0_loop 0 2 0 ⟨none, [0, 0], [], [0, 0], [1], [1], 0⟩).k) ∧
    ((uk0_loop 0 2 0 ⟨none, [0, 0], [], [0, 0], [1], [1], 0⟩).ecart1 =
      subL (matVecL (0 : Matrix (Fin 2) (Fin 2) ℝ)
          (uk0_loop 0 2 0 ⟨none, [0, 0], [], [0, 0], [1], [1], 0⟩).u)
        (uk0_loop 0 2 0 ⟨none, [0, 0], [], [0, 0], [1], [1], 0⟩).z ∧
    (uk0_loop 0 2 0 ⟨none, [0, 0], [], [0, 0], [1], [1], 0⟩).ecart2 =
      subL (uk0_loop 0 2 0 ⟨none, [0, 0], [], [0, 0], [1], [1], 0⟩).u
        (uk0_loop 0 2 0 ⟨none, [0, 0], [], [0, 0], [1], [1], 0⟩).uprev ∧
    linf (uk0_loop 0 2 0 ⟨none, [0, 0], [], [0, 0], [1], [1], 0⟩).ecart1 < 1e-11 ∧
    linf (uk0_loop 0 2 0 ⟨none, [0, 0], [], [0, 0], [1], [1], 0⟩).ecart2 < 1e-8) := by
  have hz0 : ∀ i, (([0, 0] : List ℝ)).getD i 0 = 0 := by
    intro i
    match i with
    | 0 => rfl
    | 1 => rfl
    | i + 2 => rfl
  have hzlist : pb_z [0, 0] 2 0 = [0, 0] := by
    norm_num [pb_z, pb_quad, pb_loop, pb_z0, pb_zval, pb_g, Real.sinh_zero,
      List.range', List.replicate]
  have hydef : ∀ i, (descente (lutri (pb_a 2) (pb_b [0, 0] 2 0) (pb_c [0, 0] 2 0)).1
      (pb_z [0, 0] 2 0)).getD i 0 = 0 := by
    intro i
    rw [hzlist, descente]
    rw [getD_range_map]
    split
    · apply descente_y_zero
      exact hz0
    · rfl
  have hulist : (solve_poisson_boltzmann [0, 0] 2 0).2.1 = [0, 0] := by
    show remontee (lutri (pb_a 2) (pb_b [0, 0] 2 0) (pb_c [0, 0] 2 0)).2 (pb_c [0, 0] 2 0)
      (descente (lutri (pb_a 2) (pb_b [0, 0] 2 0) (pb_c [0, 0] 2 0)).1 (pb_z [0, 0] 2 0)) = [0, 0]
    rw [remontee]
    have hlen : (descente (lutri (pb_a 2) (pb_b [0, 0] 2 0) (pb_c [0, 0] 2 0)).1
        (pb_z [0, 0] 2 0)).length = 2 := by
      rw [descente, hzlist]
      simp
    rw [hlen]
    have hx0 : ∀ j, remontee_x (lutri (pb_a 2) (pb_b [0, 0] 2 0) (pb_c [0, 0] 2 0)).2
        (pb_c [0, 0] 2 0)
        (descente (lutri (pb_a 2) (pb_b [0, 0] 2 0) (pb_c [0, 0] 2 0)).1 (pb_z [0, 0] 2 0))
        j = 0 :=
      remontee_x_zero _ _ _ hydef
    rw [List.range_succ, List.range_succ, List.range_zero]
    simp [hx0]
  have hstepeq : uk0_step 0 2 0 ⟨none, [0, 0], [], [0, 0], [1], [1], 0⟩ =
      ⟨some (pb_x [0, 0] 2 0), [0, 0], [0, 0], [0, 0], [0, 0], [0, 0], 1⟩ := by
    rw [uk0_step]
    show (⟨some (solve_poisson_boltzmann [0, 0] 2 0).1,
      (solve_poisson_boltzmann [0, 0] 2 0).2.1,
      (solve_poisson_boltzmann [0, 0] 2 0).2.2, [0, 0],
      subL (matVecL 0 (solve_poisson_boltzmann [0, 0] 2 0).2.1)
        (solve_poisson_boltzmann [0, 0] 2 0).2.2,
      subL (solve_poisson_boltzmann [0, 0] 2 0).2.1 [0, 0], 1⟩ : UK0State) = _
    have hz2 : (solve_poisson_boltzmann [0, 0] 2 0).2.2 = [0, 0] := hzlist
    have hmv : matVecL (0 : Matrix (Fin 2) (Fin 2) ℝ) [0, 0] = [0, 0] := by
      rw [matVecL]
      simp [Matrix.zero_mulVec, List.ofFn_succ]
    rw [hulist, hz2]
    have hsub : subL [(0 : ℝ), 0] [0, 0] = [0, 0] := by
      norm_num [subL]
    rw [hmv, hsub]
    rfl
  have hnotdone : ¬ uk0_done ⟨none, [0, 0], [], [0, 0], [1], [1], 0⟩ := by
    intro h
    rw [uk0_done] at h
    rcases h with h | h
    · exact absurd h (by norm_num)
    · have h1 := h.1
      rw [show linf [(1 : ℝ)] = 1 from by norm_num [linf]] at h1
      norm_num at h1
  have hdone2 : uk0_done (⟨some (pb_x [0, 0] 2 0), [0, 0], [0, 0], [0, 0],
      [0, 0], [0, 0], 1⟩ : UK0State) := by
    rw [uk0_done]
    right
    constructor <;> norm_num [linf]
  have hloopeq : uk0_loop 0 2 0 ⟨none, [0, 0], [], [0, 0], [1], [1], 0⟩ =
      ⟨some (pb_x [0, 0] 2 0), [0, 0], [0, 0], [0, 0], [0, 0], [0, 0], 1⟩ := by
    rw [uk0_loop, if_neg hnotdone, hstepeq, uk0_loop, if_pos hdone2]
  have hcap : (uk0_loop 0 2 0 ⟨none, [0, 0], [], [0, 0], [1], [1], 0⟩).k ≤ 200 := by
    rw [hloopeq]
    norm_num
  have hone : (⟨none, [0, 0], [], [0, 0], [1], [1], 0⟩ : UK0State).k <
      (uk0_loop 0 2 0 ⟨none, [0, 0], [], [0, 0], [1], [1], 0⟩).k := by
    rw [hloopeq]
    norm_num
  exact ⟨⟨hcap, hone⟩, claim_C6 0 2 0 _ hcap hone⟩

/-! ### The bisection search (`find_convergence_mu`, lines 233-246)

The code bisects on `mu` over the initial bracket `[0, 7]`: while the
bracket width exceeds `10e-6` (that is, `1e-5`) it takes the midpoint
`m`, asks the oracle (`calcul_uk0(m)` returning `k > 200` means the
fixed-point iteration diverged), shrinks the bracket to the half whose
endpoint is `m`, and finally returns the last midpoint.  The initial
width is `7 > 1e-5`, so the body always runs at least once (modelled as a
do-while).  The loop is embedded with a fuel parameter so that
termination is itself a theorem: since every pass exactly halves the
width, fuel 20 always suffices (`7 / 2^20 < 1e-5`), for every oracle. -/

noncomputable def find_loop (oracle : ℝ → Bool) : ℕ → ℝ → ℝ → Option ℝ
  | 0, _, _ => none
  | fuel + 1, debut, fin =>
    let m := (debut + fin) / 2
    let p : ℝ × ℝ := if oracle m then (debut, m) else (m, fin)
    if p.2 - p.1 > 10e-6 then find_loop oracle fuel p.1 p.2 else some m

noncomputable def find_convergence_mu (oracle : ℝ → Bool) : Option ℝ :=
  find_loop oracle 20 0 7

noncomputable def find_convergence_mu_run : Option ℝ :=
  find_convergence_mu fun m => decide ((calcul_uk0 m).2.2 > 200)

theorem find_loop_isSome (oracle : ℝ → Bool) :
    ∀ (fuel : ℕ) (d f : ℝ), f - d ≤ 2 ^ (fuel + 1) * 10e-6 →
    ∃ μ, find_loop oracle (fuel + 1) d f = some μ := by
  intro fuel
  induction fuel with
  | zero =>
    intro d f hdf
    rw [find_loop]
    by_cases ho : oracle ((d + f) / 2) = true
    · simp only [ho, if_true]
      rw [if_neg (by norm_num at hdf ⊢; linarith)]
      exact ⟨_, rfl⟩
    · simp only [ho, Bool.false_eq_true, if_false]
      rw [if_neg (by norm_num at hdf ⊢; linarith)]
      exact ⟨_, rfl⟩
  | succ fuel ih =>
    intro d f hdf
    rw [find_loop]
    rw [pow_succ] at hdf
    by_cases ho : oracle ((d + f) / 2) = true
    · simp only [ho, if_true]
      by_cases hg : (d + f) / 2 - d > 10e-6
      · rw [if_pos hg]
        exact ih d ((d + f) / 2) (by linarith)
      · rw [if_neg hg]
        exact ⟨_, rfl⟩
    · simp only [ho, Bool.false_eq_true, if_false]
      by_cases hg : f - (d + f) / 2 > 10e-6
      · rw [if_pos hg]
        exact ih ((d + f) / 2) f (by linarith)
      · rw [if_neg hg]
        exact ⟨_, rfl⟩

theorem find_loop_mem (oracle : ℝ → Bool) :
    ∀ (fuel : ℕ) (d f μ : ℝ), d ≤ f →
    find_loop oracle fuel d f = some μ → d ≤ μ ∧ μ ≤ f := by
  intro fuel
  induction fuel with
  | zero =>
    intro d f μ hdf h
    rw [find_loop] at h
    exact absurd h (by simp)
  | succ fuel ih =>
    intro d f μ hdf h
    rw [find_loop] at h
    have hm1 : d ≤ (d + f) / 2 := by linarith
    have hm2 : (d + f) / 2 ≤ f := by linarith
    by_cases ho : oracle ((d + f) / 2) = true
    · simp only [ho, if_true] at h
      by_cases hg : (d + f) / 2 - d > 10e-6
      · rw [if_pos hg] at h
        have h2 := ih d ((d + f) / 2) μ hm1 h
        exact ⟨h2.1, le_trans h2.2 hm2⟩
      · rw [if_neg hg] at h
        rw [Option.some_inj] at h
        rw [← h]
        exact ⟨hm1, hm2⟩
    · simp only [ho, Bool.false_eq_true, if_false] at h
      by_cases hg : f - (d + f) / 2 > 10e-6
      · rw [if_pos hg] at h
        have h2 := ih ((d + f) / 2) f μ hm2 h
        exact ⟨le_trans hm1 h2.1, h2.2⟩
      · rw [if_neg hg] at h
        rw [Option.some_inj] at h
        rw [← h]
        exact ⟨hm1, hm2⟩

/-- C7: the bisection of `find_convergence_mu` terminates for every
possible oracle (20 halvings of the initial bracket `[0, 7]` always bring
the width below the stop threshold `1e-5`, written `10e-6` in the code)
and the returned value lies in `[0, 7]`.  Each pass halves the bracket by
replacing `fin` or `debut` with the midpoint, which also maintains
`0 <= debut <= fin <= 7` (the invariant behind `find_loop_mem`). -/
theorem claim_C7 :
    ∀ oracle : ℝ → Bool, ∃ μ, find_convergence_mu oracle = some μ ∧ 0 ≤ μ ∧ μ ≤ 7 := by
  intro oracle
  obtain ⟨μ, hμ⟩ := find_loop_isSome oracle 19 0 7 (by norm_num)
  have h2 := find_loop_mem oracle 20 0 7 μ (by norm_num) hμ
  exact ⟨μ, hμ, h2.1, h2.2⟩

end DHPB
